import Mathlib

/-!
Verification of the backup/restore pipeline of the baaaaaaaaackitup repository.

The Python source is shallowly embedded: pathlib paths become lists of path
segments (an absolute path has the root marker as its first segment, exactly
as in the tuple returned by the parts attribute of a pathlib PurePosixPath),
strings become Lean strings with all primitive operations re-implemented over
character lists so that the kernel can evaluate them, fallible code returns
Except, and the filesystem walked by the archive builder is an explicit tree
whose items carry the outcome (success, permission denial, other OS failure)
that the runtime produces when the code touches them.
-/

/-! ### String primitives over character lists

These model the Python string operations used by the source: substring
containment (the in operator), startswith, lstrip of slashes, and splitting
on the slash character.
-/

/-- hasPref l p is true when the character list p is a leading segment of l.
Models str.startswith. -/
def hasPref : List Char → List Char → Bool
  | _, [] => true
  | [], _ :: _ => false
  | a :: as, b :: bs => a == b && hasPref as bs

/-- hasSub l p is true when p occurs contiguously inside l.
Models the Python substring test (pat in s). -/
def hasSub : List Char → List Char → Bool
  | [], p => p.isEmpty
  | a :: as, p => hasPref (a :: as) p || hasSub as p

/-- Python substring test: strContains s pat models (pat in s). -/
def strContains (s pat : String) : Bool := hasSub s.data pat.data

/-- Python str.startswith. -/
def pyStartsWith (s pat : String) : Bool := hasPref s.data pat.data

/-- Python str.endswith. -/
def pyEndsWith (s pat : String) : Bool := hasPref s.data.reverse pat.data.reverse

/-- Split a character list on the slash character; the result is the list of
slash-free segments, matching how a POSIX path string decomposes. -/
def splitSlash : List Char → List (List Char)
  | [] => [[]]
  | c :: cs =>
    if c == '/' then [] :: splitSlash cs
    else
      match splitSlash cs with
      | [] => [[c]]
      | seg :: rest => (c :: seg) :: rest

/-- The slash-separated segments of a string. -/
def segmentsOf (s : String) : List (List Char) := splitSlash s.data

/-- A string contains a parent-directory traversal segment when one of its
slash-separated segments is exactly the two-dot segment. -/
def hasTraversalSeg (s : String) : Bool := decide (['.', '.'] ∈ segmentsOf s)

/-- Drop every leading slash character. -/
def dropSlashes : List Char → List Char
  | [] => []
  | c :: cs => if c == '/' then dropSlashes cs else c :: cs

/-- Models what tarfile.gettarinfo does to an arcname passed to tar.add:
leading slashes are stripped (arcname.lstrip of the separator). Entries
created directly through the TarInfo constructor do not go through this. -/
def tarAddArcname (s : String) : String := String.mk (dropSlashes s.data)

/-! ### The pathlib model

A path is its parts list. joinRel renders a relative parts list; strOfParts
renders a full parts list the way str applied to a pathlib Path does,
treating a leading root marker specially.
-/

/-- Render a list of relative path segments separated by slashes. -/
def joinRel : List String → String
  | [] => ""
  | [s] => s
  | s :: rest => s ++ "/" ++ joinRel rest

/-- Models str applied to a pathlib PurePosixPath built from the given parts
list: the empty parts list renders as the dot path, a leading root marker
renders as a single slash prefix. -/
def strOfParts : List String → String
  | [] => "."
  | s :: rest => if s = "/" then "/" ++ joinRel rest else joinRel (s :: rest)

/-- Python list slicing l[-n:]. For n = 0 this is l[0:], the whole list;
for n greater than the length the index clamps to the start. -/
def pySliceLast (l : List String) (n : Nat) : List String :=
  if n = 0 then l else l.drop (l.length - n)

/-- Models the name attribute of a pathlib Path given its parts: the last
part, except that the root path and the empty path have an empty name. -/
def pathName (parts : List String) : String :=
  match parts.getLast? with
  | some s => if s = "/" then "" else s
  | none => ""

/-! ### BackupManager.should_exclude (backup_manager.py lines 67 to 85) -/

/-- The fixed exclusion pattern list from should_exclude. -/
def exclude_patterns : List String :=
  ["/.git/", "/.git", "__pycache__", "*.pyc", "*.pyo"]

/-- BackupManager.should_exclude: the Python code tests (pattern in path) for
each pattern, that is literal substring containment, for the star patterns
as well. -/
def should_exclude (path : String) : Bool :=
  exclude_patterns.any (fun pattern => strContains path pattern)

/-! ### BackupManager.get_preserved_path (backup_manager.py lines 87 to 117) -/

/-- Models Path.relative_to: defined when the parts of the base are a leading
segment of the parts of the path, in which case it returns the remaining
parts; otherwise Python raises ValueError, modelled as none. -/
def relativeToParts (fullParts baseParts : List String) : Option (List String) :=
  if baseParts.isPrefixOf fullParts then some (fullParts.drop baseParts.length)
  else none

/-- BackupManager.get_preserved_path, on parts lists. The slice
backup_parts[-num_levels:] is pySliceLast; the ValueError fallback returns a
path holding only the final segment of the full path. -/
def get_preserved_path (preserve_levels : Nat) (fullParts backupParts : List String) :
    List String :=
  match relativeToParts fullParts backupParts with
  | some relative_part =>
    pySliceLast backupParts (min preserve_levels backupParts.length) ++ relative_part
  | none => [pathName fullParts]

/-! ### Tar archive members and RestoreManager.extract_tar
(restore_manager.py lines 109 to 129) -/

/-- One member of the container archive: its recorded name, whether it is a
directory entry, and its content bytes (empty for directories). -/
structure TarMember where
  name : String
  isDir : Bool
  content : List Nat
deriving Repr, DecidableEq

/-- The per-member safety test of extract_tar:
member.name.startswith(slash) or a two-dot substring anywhere in the name. -/
def unsafeMemberName (nm : String) : Bool :=
  pyStartsWith nm "/" || strContains nm ".."

/-- RestoreManager.extract_tar: every member of the archive listing is
checked before any extraction; the first unsafe member raises DirectoryError
(re-wrapped by the surrounding handler), and only if no member is unsafe does
extractall write the members. The ok payload is the list of members written
to disk; an error writes nothing. -/
def extract_tar (members : List TarMember) : Except String (List TarMember) :=
  match members.find? (fun m => unsafeMemberName m.name) with
  | some m => Except.error ("Extraction failed: Potentially unsafe path in archive: " ++ m.name)
  | none => Except.ok members

/-- The files an extraction run writes to disk: the ok payload, nothing on
error. -/
def writesOf (r : Except String (List TarMember)) : List TarMember :=
  match r with
  | Except.ok ms => ms
  | Except.error _ => []

/-! ### The filesystem model walked by the archive builder

A directory listing is modelled first-order: a listing is either exhausted,
or starts with a regular file followed by the remaining siblings, or starts
with a subdirectory (with its own listing) followed by the remaining
siblings. Each item carries the outcome the runtime produces at the point
where create_tar_archive touches it (tar.addfile for directory headers,
tar.add for file contents): success, a PermissionError, or any other
exception.
-/

/-- Outcome of the archiving call on one filesystem item. -/
inductive ItemStatus where
  | ok
  | permDenied
  | otherErr
deriving Repr, DecidableEq

/-- A directory listing: empty, a regular file (name, content bytes, runtime
outcome) followed by its siblings, or a subdirectory (name, runtime outcome,
its own listing) followed by its siblings. -/
inductive FsListing where
  | nil
  | file (nm : String) (content : List Nat) (st : ItemStatus) (rest : FsListing)
  | dir (nm : String) (st : ItemStatus) (children : FsListing) (rest : FsListing)
deriving Repr, DecidableEq

/-- Accumulated output of a walk: archive entries written, paths recorded as
skipped after a permission denial, and the accumulated source byte size
(total_source_size in the code). -/
structure WalkOut where
  entries : List TarMember
  skipped : List String
  srcSize : Nat
deriving Repr, DecidableEq

def emptyOut : WalkOut := ⟨[], [], 0⟩

def appendOut (a b : WalkOut) : WalkOut :=
  ⟨a.entries ++ b.entries, a.skipped ++ b.skipped, a.srcSize + b.srcSize⟩

/-! ### BackupManager.create_tar_archive (backup_manager.py lines 119 to 221)

os.walk visits a directory, hands the code its subdirectory and file names,
and then descends into the subdirectories that survived the pruning
assignment dirs[:] = ... . For each visited root the code first loops over
the pruned directory names writing directory headers, then over the file
names adding file contents, and only then does os.walk descend. passDirs and
passFiles are those two loops for one root; walkSubs is the descent.
-/

/-- The directory loop at one visited root. The pruning check uses the
f-string root/name, the loop body check uses str of the joined path; for a
kept directory with ok status a TarInfo header is written with the preserved
path verbatim (no arcname stripping), a PermissionError records the path as
skipped, any other exception propagates. -/
def passDirs (k : Nat) (bdir cur : List String) : FsListing → Except String WalkOut
  | FsListing.nil => Except.ok emptyOut
  | FsListing.file _ _ _ rest => passDirs k bdir cur rest
  | FsListing.dir nm st _ rest =>
    if should_exclude (strOfParts cur ++ "/" ++ nm) then passDirs k bdir cur rest
    else if should_exclude (strOfParts (cur ++ [nm])) then passDirs k bdir cur rest
    else
      match st with
      | ItemStatus.ok =>
        (passDirs k bdir cur rest).map
          (appendOut ⟨[⟨strOfParts (get_preserved_path k (cur ++ [nm]) bdir), true, []⟩], [], 0⟩)
      | ItemStatus.permDenied =>
        (passDirs k bdir cur rest).map (appendOut ⟨[], [strOfParts (cur ++ [nm])], 0⟩)
      | ItemStatus.otherErr =>
        Except.error ("tar addfile failed: " ++ strOfParts (cur ++ [nm]))

/-- The file loop at one visited root. os.path.getsize is read and added to
total_source_size before tar.add is attempted, so even a file whose add then
fails with PermissionError contributes its size. File entries written by
tar.add go through arcname lstrip of leading slashes. -/
def passFiles (k : Nat) (bdir cur : List String) : FsListing → Except String WalkOut
  | FsListing.nil => Except.ok emptyOut
  | FsListing.dir _ _ _ rest => passFiles k bdir cur rest
  | FsListing.file nm content st rest =>
    if should_exclude (strOfParts (cur ++ [nm])) then passFiles k bdir cur rest
    else
      match st with
      | ItemStatus.ok =>
        (passFiles k bdir cur rest).map
          (appendOut ⟨[⟨tarAddArcname (strOfParts (get_preserved_path k (cur ++ [nm]) bdir)),
            false, content⟩], [], content.length⟩)
      | ItemStatus.permDenied =>
        (passFiles k bdir cur rest).map
          (appendOut ⟨[], [strOfParts (cur ++ [nm])], content.length⟩)
      | ItemStatus.otherErr =>
        Except.error ("tar add failed: " ++ strOfParts (cur ++ [nm]))

/-- The descent of os.walk below one visited root: each subdirectory that
survived the pruning check is visited in turn (its own two loops, then its
own descent), independently of whether its header write succeeded. -/
def walkSubs (k : Nat) (bdir : List String) : List String → FsListing → Except String WalkOut
  | _, FsListing.nil => Except.ok emptyOut
  | cur, FsListing.file _ _ _ rest => walkSubs k bdir cur rest
  | cur, FsListing.dir nm _ sub rest =>
    if should_exclude (strOfParts cur ++ "/" ++ nm) then walkSubs k bdir cur rest
    else do
      let a ← passDirs k bdir (cur ++ [nm]) sub
      let b ← passFiles k bdir (cur ++ [nm]) sub
      let s ← walkSubs k bdir (cur ++ [nm]) sub
      let r ← walkSubs k bdir cur rest
      Except.ok (appendOut a (appendOut b (appendOut s r)))

/-- The full os.walk processing of one visited root: its directory loop, its
file loop, then the descent. -/
def walkLevel (k : Nat) (bdir cur : List String) (cs : FsListing) : Except String WalkOut := do
  let a ← passDirs k bdir cur cs
  let b ← passFiles k bdir cur cs
  let s ← walkSubs k bdir cur cs
  Except.ok (appendOut a (appendOut b s))

/-- Processing of one BackupTarget inside create_tar_archive: the walk of its
whole tree starting at the target directory itself. -/
def processTarget (k : Nat) (bdir : List String) (children : FsListing) :
    Except String WalkOut :=
  walkLevel k bdir bdir children

/-- One configured backup directory: its parts, its tree, and whether it
exists on disk. -/
structure BackupTarget where
  parts : List String
  children : FsListing
  present : Bool

/-- The per-target loop of create_tar_archive: a missing directory logs a
warning and is skipped; any exception other than PermissionError raised while
processing a target is re-raised as DirectoryError, terminating the archive
run. -/
def archiveTargets (k : Nat) : List BackupTarget → Except String WalkOut
  | [] => Except.ok emptyOut
  | t :: rest =>
    if t.present = false then archiveTargets k rest
    else
      match processTarget k t.parts t.children with
      | Except.error e =>
        Except.error ("Error processing " ++ strOfParts t.parts ++ ": " ++ e)
      | Except.ok w => (archiveTargets k rest).map (appendOut w)

/-- BackupManager.create_tar_archive: after the target loop the statistics
line divides total_tar_size by total_source_size; when no source byte was
counted this raises ZeroDivisionError, which escapes create_tar_archive. -/
def create_tar_archive (k : Nat) (targets : List BackupTarget) : Except String WalkOut :=
  match archiveTargets k targets with
  | Except.error e => Except.error e
  | Except.ok w =>
    if w.srcSize = 0 then Except.error "ZeroDivisionError: division by zero"
    else Except.ok w

/-! ### BackupManager.rotate_old_backups (backup_manager.py lines 318 to 339) -/

/-- Lexicographic comparison of character lists by code point, modelling how
Python compares strings (and hence how sorted orders the artifact names). -/
def charListLe : List Char → List Char → Bool
  | [], _ => true
  | _ :: _, [] => false
  | a :: as, b :: bs =>
    if a.toNat < b.toNat then true
    else if b.toNat < a.toNat then false
    else charListLe as bs

/-- Python string comparison. -/
def strLe (a b : String) : Bool := charListLe a.data b.data

/-- A name matches the glob base.*.gz.gpg exactly when it is base, a dot,
any (possibly empty) middle, then the compressed-encrypted suffix; with the
length bound this is precisely that decomposition. -/
def matchesBackupPattern (base nm : String) : Bool :=
  pyStartsWith nm (base ++ ".") && pyEndsWith nm ".gz.gpg" &&
    Nat.ble (base.length + 8) nm.length

/-- The while loop of rotate_old_backups: while the list still holds more
than max_backups names, pop the front (oldest) and attempt its deletion; a
deletion failure is logged as a warning and the loop continues regardless.
Returns (attempted deletions, successful deletions), both in order. -/
def rotateLoop (maxB : Nat) (unlinkOk : String → Bool) :
    List String → List String × List String
  | [] => ([], [])
  | oldest :: rest =>
    if maxB < (oldest :: rest).length then
      let p := rotateLoop maxB unlinkOk rest
      (oldest :: p.1, if unlinkOk oldest then oldest :: p.2 else p.2)
    else ([], [])

/-- The destination entries the glob plus is_file filter of
rotate_old_backups selects. dirListing pairs each destination entry with
whether it is a regular file. -/
def matchingNames (base : String) (dirListing : List (String × Bool)) : List String :=
  (dirListing.filter (fun p => matchesBackupPattern base p.1 && p.2)).map Prod.fst

/-- The sorted(...) call of rotate_old_backups: the matching names in
ascending lexicographic order. -/
def sortedBackups (base : String) (dirListing : List (String × Bool)) : List String :=
  List.insertionSort (fun a b => strLe a b = true) (matchingNames base dirListing)

/-- BackupManager.rotate_old_backups: glob the destination directory for
names matching base.*.gz.gpg, keep the regular files, sort ascending, and run
the deletion loop. unlinkOk tells whether deleting a given artifact
succeeds. -/
def rotate_old_backups (base : String) (maxB : Nat) (dirListing : List (String × Bool))
    (unlinkOk : String → Bool) : List String × List String :=
  rotateLoop maxB unlinkOk (sortedBackups base dirListing)

/-! ### Encryptor and decryptor (backup_manager.py lines 270 to 307,
restore_manager.py lines 53 to 88) -/

/-- Outcome of one completed run of the external cryptographic tool: its
exit code and whatever it printed on its diagnostic stream. -/
structure ToolRun where
  exitCode : Int
  diagOutput : String
deriving Repr, DecidableEq

/-- BackupManager.encrypt_file given the completed tool run: any diagnostic
output is logged as a warning first, then a non-zero exit raises
EncryptionError (re-wrapped by the surrounding handler); otherwise the call
returns True. First component: warnings logged; second: the outcome. -/
def encrypt_file (r : ToolRun) : List String × Except String Bool :=
  (if r.diagOutput = "" then [] else ["GPG output: " ++ r.diagOutput],
   if r.exitCode = 0 then Except.ok true
   else Except.error ("Encryption error: GPG encryption failed: " ++ r.diagOutput))

/-- RestoreManager.decrypt_file given the completed tool run; identical
shape to encrypt_file. -/
def decrypt_file (r : ToolRun) : List String × Except String Bool :=
  (if r.diagOutput = "" then [] else ["GPG output: " ++ r.diagOutput],
   if r.exitCode = 0 then Except.ok true
   else Except.error ("Decryption failed: GPG decryption failed: " ++ r.diagOutput))

/-- The exact argument vector encrypt_file hands to subprocess.run.
output_path is a parameter of the Python function but never occurs in the
command, which names only the input path. -/
def encryptCmd (password_file input_path output_path : String) : List String :=
  ["gpg", "--batch", "--yes", "--passphrase-file", password_file, "-c", input_path]

/-- The argument vector decrypt_file hands to subprocess.run; here the
output location is passed explicitly. -/
def decryptCmd (password_file backup_file output_path : String) : List String :=
  ["gpg", "--batch", "--yes", "--passphrase-file", password_file,
   "--output", output_path, "--decrypt", backup_file]

/-- Modelled from the spec: the external symmetric encryption tool, invoked
with -c and no output option, writes the encrypted artifact at the input
path with the encrypted-suffix appended (its default output location). -/
def gpgDefaultOutput (input_path : String) : String := input_path ++ ".gpg"

/-- The encrypt stage of perform_backup (backup_manager.py lines 374 to 382):
the input and output path arguments it passes to encrypt_file, built from the
final artifact path at the destination. -/
def perform_backup_encrypt_args (final_path : String) : String × String :=
  (final_path, final_path ++ ".gpg")

/-! ### Spec-side definitions

These follow the wording of the specification, not the code; the refinement
claims compare them against the embedded code above.
-/

/-- The last n trailing segments of a parts list, as the spec words it. -/
def lastSegs (n : Nat) (l : List String) : List String := l.drop (l.length - n)

/-- The resolver contract as the spec states it: the last
min(preserve_levels, segment count of the root) trailing segments of the
root, followed by the path of the descendant relative to the root. -/
def resolverSpec (k : Nat) (fullParts backupParts : List String) : List String :=
  lastSegs (min k backupParts.length) backupParts ++ fullParts.drop backupParts.length

/-! ### Tree observations used to state the claims -/

/-- The relative paths and contents of the files of a listing, in the order
the walk meets them: the files of the visited root first, then the files
below each subdirectory in listing order. -/
def sourceFilesHere : FsListing → List (List String × List Nat)
  | FsListing.nil => []
  | FsListing.file nm c _ rest => ([nm], c) :: sourceFilesHere rest
  | FsListing.dir _ _ _ rest => sourceFilesHere rest

/-- The files strictly below the subdirectories of a listing, prefixed with
the subdirectory names, in walk order. -/
def sourceFilesSub : FsListing → List (List String × List Nat)
  | FsListing.nil => []
  | FsListing.file _ _ _ rest => sourceFilesSub rest
  | FsListing.dir nm _ sub rest =>
    (sourceFilesHere sub ++ sourceFilesSub sub).map (fun pr => (nm :: pr.1, pr.2))
      ++ sourceFilesSub rest

/-- All files of a listing with their relative paths, in walk order. -/
def sourceFiles (cs : FsListing) : List (List String × List Nat) :=
  sourceFilesHere cs ++ sourceFilesSub cs

/-- Total source byte size of all files in a listing. -/
def treeSize : FsListing → Nat
  | FsListing.nil => 0
  | FsListing.file _ c _ rest => c.length + treeSize rest
  | FsListing.dir _ _ sub rest => treeSize sub + treeSize rest

/-- A well-formed path segment as an operating system would produce it from
a real directory entry: non-empty, free of slashes, and neither of the two
special entries. -/
def validSeg (s : String) : Bool :=
  !(s == "") && !strContains s "/" && !(s == ".") && !(s == "..")

/-- Every name in the listing satisfies the given predicate. -/
def eachName (P : String → Bool) : FsListing → Bool
  | FsListing.nil => true
  | FsListing.file nm _ _ rest => P nm && eachName P rest
  | FsListing.dir nm _ sub rest => P nm && eachName P sub && eachName P rest

/-- Every name in the listing is a well-formed segment. -/
def wfNames (cs : FsListing) : Bool := eachName validSeg cs

/-- No name in the listing contains a two-dot substring. -/
def noDotDotNames (cs : FsListing) : Bool :=
  eachName (fun s => !strContains s "..") cs

/-- Every item in the listing archives without incident. -/
def allOkStatus : FsListing → Bool
  | FsListing.nil => true
  | FsListing.file _ _ st rest => st == ItemStatus.ok && allOkStatus rest
  | FsListing.dir _ st sub rest => st == ItemStatus.ok && allOkStatus sub && allOkStatus rest

/-- No item in the listing raises anything other than PermissionError. -/
def noHardErr : FsListing → Bool
  | FsListing.nil => true
  | FsListing.file _ _ st rest => !(st == ItemStatus.otherErr) && noHardErr rest
  | FsListing.dir _ st sub rest =>
    !(st == ItemStatus.otherErr) && noHardErr sub && noHardErr rest

/-- Some item in the listing raises a non-permission exception. -/
def hasHardErr : FsListing → Bool
  | FsListing.nil => false
  | FsListing.file _ _ st rest => st == ItemStatus.otherErr || hasHardErr rest
  | FsListing.dir _ st sub rest =>
    st == ItemStatus.otherErr || hasHardErr sub || hasHardErr rest

/-- No path string the walk tests below cur matches an exclusion pattern,
in either of the two string forms the code builds. -/
def noExcl : List String → FsListing → Bool
  | _, FsListing.nil => true
  | cur, FsListing.file nm _ _ rest =>
    !should_exclude (strOfParts (cur ++ [nm])) && noExcl cur rest
  | cur, FsListing.dir nm _ sub rest =>
    !should_exclude (strOfParts cur ++ "/" ++ nm) &&
      !should_exclude (strOfParts (cur ++ [nm])) &&
      noExcl (cur ++ [nm]) sub && noExcl cur rest

/-! ### The exclusion-free mirror of the walk

Under the hypotheses that nothing is excluded and nothing raises a
non-permission exception, the walk below equals this total, status-driven
mirror: ok items are archived, permission-denied items are recorded as
skipped, and the walk continues through all of them.
-/

/-- Mirror of the directory loop at one root. -/
def mirrorDirs (k : Nat) (bdir cur : List String) : FsListing → WalkOut
  | FsListing.nil => emptyOut
  | FsListing.file _ _ _ rest => mirrorDirs k bdir cur rest
  | FsListing.dir nm st _ rest =>
    match st with
    | ItemStatus.ok =>
      appendOut ⟨[⟨strOfParts (get_preserved_path k (cur ++ [nm]) bdir), true, []⟩], [], 0⟩
        (mirrorDirs k bdir cur rest)
    | ItemStatus.permDenied =>
      appendOut ⟨[], [strOfParts (cur ++ [nm])], 0⟩ (mirrorDirs k bdir cur rest)
    | ItemStatus.otherErr => mirrorDirs k bdir cur rest

/-- Mirror of the file loop at one root. -/
def mirrorFiles (k : Nat) (bdir cur : List String) : FsListing → WalkOut
  | FsListing.nil => emptyOut
  | FsListing.dir _ _ _ rest => mirrorFiles k bdir cur rest
  | FsListing.file nm content st rest =>
    match st with
    | ItemStatus.ok =>
      appendOut ⟨[⟨tarAddArcname (strOfParts (get_preserved_path k (cur ++ [nm]) bdir)),
        false, content⟩], [], content.length⟩ (mirrorFiles k bdir cur rest)
    | ItemStatus.permDenied =>
      appendOut ⟨[], [strOfParts (cur ++ [nm])], content.length⟩ (mirrorFiles k bdir cur rest)
    | ItemStatus.otherErr => mirrorFiles k bdir cur rest

/-- Mirror of the descent. -/
def mirrorSubs (k : Nat) (bdir : List String) : List String → FsListing → WalkOut
  | _, FsListing.nil => emptyOut
  | cur, FsListing.file _ _ _ rest => mirrorSubs k bdir cur rest
  | cur, FsListing.dir nm _ sub rest =>
    appendOut (mirrorDirs k bdir (cur ++ [nm]) sub)
      (appendOut (mirrorFiles k bdir (cur ++ [nm]) sub)
        (appendOut (mirrorSubs k bdir (cur ++ [nm]) sub) (mirrorSubs k bdir cur rest)))

/-- Mirror of the full processing of one root. -/
def mirrorLevel (k : Nat) (bdir cur : List String) (cs : FsListing) : WalkOut :=
  appendOut (mirrorDirs k bdir cur cs)
    (appendOut (mirrorFiles k bdir cur cs) (mirrorSubs k bdir cur cs))

/-! ### Claim-level composite definitions -/

/-- All archive member names an archive run writes are free of a leading
root marker and of parent-traversal segments (the invariant of claim C2). -/
def builderNamesSafe (k : Nat) (targets : List BackupTarget) : Prop :=
  ∀ w, create_tar_archive k targets = Except.ok w →
    ∀ m ∈ w.entries, pyStartsWith m.name "/" = false ∧ hasTraversalSeg m.name = false

/-- The backup pipeline followed by the restore pipeline on one target. The
compressor and the encryptor and their inverses are byte-stream stages whose
contract makes them exact inverses, so the container archive reaching
extract_tar is the one create_tar_archive wrote. -/
def backupThenRestore (k : Nat) (bdir : List String) (children : FsListing) :
    Except String (List TarMember) :=
  match create_tar_archive k [⟨bdir, children, true⟩] with
  | Except.error e => Except.error e
  | Except.ok w => extract_tar w.entries

/-- The relative file set an extraction writes: names with contents of the
non-directory members. -/
def extractedFiles (ms : List TarMember) : List (String × List Nat) :=
  (ms.filter (fun m => !m.isDir)).map (fun m => (m.name, m.content))

/-- The round-trip property of claim C4: backup then restore reproduces
exactly the source file set, byte-identical, beneath the preserved-path
prefix. -/
def roundTripReproduces (k : Nat) (bdir : List String) (children : FsListing) : Prop :=
  ∃ ms, backupThenRestore k bdir children = Except.ok ms ∧
    extractedFiles ms =
      (sourceFiles children).map
        (fun pr => (strOfParts (lastSegs (min k bdir.length) bdir ++ pr.1), pr.2))

/-! ### Auxiliary observations on listings used by the proofs -/

/-- Some top-level item (file or directory) of the listing has this name. -/
def topItemName (nm : String) : FsListing → Prop
  | FsListing.nil => False
  | FsListing.file nm2 _ _ rest => nm2 = nm ∨ topItemName nm rest
  | FsListing.dir nm2 _ _ rest => nm2 = nm ∨ topItemName nm rest

/-- Some top-level directory of the listing has this name and this listing. -/
def topDir (nm : String) (sub : FsListing) : FsListing → Prop
  | FsListing.nil => False
  | FsListing.file _ _ _ rest => topDir nm sub rest
  | FsListing.dir nm2 _ sub2 rest => (nm2 = nm ∧ sub2 = sub) ∨ topDir nm sub rest

/-- The relative directory path rel followed by the final name nm leads to an
item of the listing. -/
def pathInListing : List String → String → FsListing → Prop
  | [], nm, cs => topItemName nm cs
  | d :: rel, nm, cs => ∃ sub, topDir d sub cs ∧ pathInListing rel nm sub

/-- Some top-level directory item carries the non-permission failure. -/
def hardTopDirs : FsListing → Bool
  | FsListing.nil => false
  | FsListing.file _ _ _ rest => hardTopDirs rest
  | FsListing.dir _ st _ rest => st == ItemStatus.otherErr || hardTopDirs rest

/-- Some top-level file item carries the non-permission failure. -/
def hardTopFiles : FsListing → Bool
  | FsListing.nil => false
  | FsListing.file _ _ st rest => st == ItemStatus.otherErr || hardTopFiles rest
  | FsListing.dir _ _ _ rest => hardTopFiles rest

/-- Some item strictly below a top-level directory carries the
non-permission failure (the scope the descent walkSubs touches). -/
def hasHardBelow : FsListing → Bool
  | FsListing.nil => false
  | FsListing.file _ _ _ rest => hasHardBelow rest
  | FsListing.dir _ _ sub rest => hasHardErr sub || hasHardBelow rest

/-! ## Lemmas about the string primitives -/

theorem hasPref_nil (l : List Char) : hasPref l [] = true := by
  cases l <;> rfl

theorem splitSlash_ne_nil (l : List Char) : splitSlash l ≠ [] := by
  cases l with
  | nil => simp [splitSlash]
  | cons c cs =>
    by_cases h : (c == '/') = true
    · simp [splitSlash, h]
    · cases h2 : splitSlash cs with
      | nil => exact absurd h2 (splitSlash_ne_nil cs)
      | cons s r => simp [splitSlash, h, h2]

theorem hasPref_head_splitSlash : ∀ (l s : List Char) (r : List (List Char)),
    splitSlash l = s :: r → hasPref l s = true := by
  intro l
  induction l with
  | nil =>
    intro s r h
    simp only [splitSlash, List.cons.injEq] at h
    rw [← h.1]
    exact hasPref_nil []
  | cons c cs ih =>
    intro s r h
    by_cases hc : (c == '/') = true
    · simp only [splitSlash, hc, if_true, List.cons.injEq] at h
      rw [← h.1]
      exact hasPref_nil _
    · cases h2 : splitSlash cs with
      | nil => exact absurd h2 (splitSlash_ne_nil cs)
      | cons s' r' =>
        have hl : splitSlash (c :: cs) = (c :: s') :: r' := by
          simp [splitSlash, hc, h2]
        rw [hl] at h
        injection h with ha hb
        rw [← ha]
        simp [hasPref, ih s' r' h2]

theorem hasSub_of_mem_splitSlash : ∀ (l seg : List Char), seg ∈ splitSlash l →
    hasSub l seg = true := by
  intro l
  induction l with
  | nil =>
    intro seg h
    simp only [splitSlash, List.mem_singleton] at h
    subst h
    rfl
  | cons c cs ih =>
    intro seg h
    by_cases hc : (c == '/') = true
    · simp only [splitSlash, hc, if_true, List.mem_cons] at h
      rcases h with h | h
      · subst h
        simp [hasSub, hasPref_nil]
      · simp [hasSub, ih seg h]
    · cases h2 : splitSlash cs with
      | nil => exact absurd h2 (splitSlash_ne_nil cs)
      | cons s' r' =>
        have hl : splitSlash (c :: cs) = (c :: s') :: r' := by
          simp [splitSlash, hc, h2]
        rw [hl] at h
        rcases List.mem_cons.mp h with h | h
        · subst h
          simp [hasSub, hasPref, hasPref_head_splitSlash cs s' r' h2]
        · have hmem : seg ∈ splitSlash cs := by
            rw [h2]; exact List.mem_cons_of_mem _ h
          simp [hasSub, ih seg hmem]

theorem strContains_of_hasTraversalSeg (s : String) (h : hasTraversalSeg s = true) :
    strContains s ".." = true := by
  have hm : ['.', '.'] ∈ splitSlash s.data := by
    have := of_decide_eq_true h
    simpa [segmentsOf] using this
  exact hasSub_of_mem_splitSlash s.data ['.', '.'] hm

/-! ## Claim C1: unsafe archives are rejected before any extraction -/

/-- C1: for every archive containing at least one entry whose recorded path
is absolute or contains a parent-directory traversal segment, extract_tar
(which checks every member of the listing before calling extractall) raises
the directory error and writes no file from the archive. -/
theorem extract_tar_rejects_unsafe (ms : List TarMember)
    (h : ∃ m ∈ ms, pyStartsWith m.name "/" = true ∨ hasTraversalSeg m.name = true) :
    (∃ e, extract_tar ms = Except.error e) ∧ writesOf (extract_tar ms) = [] := by
  obtain ⟨m, hm, hu⟩ := h
  have hbadname : unsafeMemberName m.name = true := by
    unfold unsafeMemberName
    rcases hu with hu | hu
    · simp [hu]
    · simp [strContains_of_hasTraversalSeg _ hu]
  cases hfind : ms.find? (fun m => unsafeMemberName m.name) with
  | none =>
    exfalso
    have := List.find?_eq_none.mp hfind m hm
    simp [hbadname] at this
  | some m0 =>
    have hext : extract_tar ms =
        Except.error ("Extraction failed: Potentially unsafe path in archive: " ++ m0.name) := by
      unfold extract_tar
      rw [hfind]
    exact ⟨⟨_, hext⟩, by rw [hext]; rfl⟩

/-- Witness for C1 at the traversal example from the spec. -/
theorem extract_tar_rejects_unsafe_witness :
    (∃ m ∈ [TarMember.mk "../../escape" false []],
      pyStartsWith m.name "/" = true ∨ hasTraversalSeg m.name = true) ∧
    ((∃ e, extract_tar [TarMember.mk "../../escape" false []] = Except.error e) ∧
      writesOf (extract_tar [TarMember.mk "../../escape" false []]) = []) :=
  have h : ∃ m ∈ [TarMember.mk "../../escape" false []],
      pyStartsWith m.name "/" = true ∨ hasTraversalSeg m.name = true :=
    ⟨TarMember.mk "../../escape" false [], by decide, Or.inr (by decide)⟩
  ⟨h, extract_tar_rejects_unsafe _ h⟩

/-! ## Claim C9: any two-dot substring is rejected, even in benign names -/

/-- C9: every archive containing a member whose name contains the two-dot
substring anywhere, even with no parent-traversal segment, is rejected with
the directory error and nothing is written. -/
theorem extract_tar_rejects_dotdot_substring (ms : List TarMember)
    (h : ∃ m ∈ ms, strContains m.name ".." = true) :
    (∃ e, extract_tar ms = Except.error e) ∧ writesOf (extract_tar ms) = [] := by
  obtain ⟨m, hm, hu⟩ := h
  have hbadname : unsafeMemberName m.name = true := by
    unfold unsafeMemberName
    simp [hu]
  cases hfind : ms.find? (fun m => unsafeMemberName m.name) with
  | none =>
    exfalso
    have := List.find?_eq_none.mp hfind m hm
    simp [hbadname] at this
  | some m0 =>
    have hext : extract_tar ms =
        Except.error ("Extraction failed: Potentially unsafe path in archive: " ++ m0.name) := by
      unfold extract_tar
      rw [hfind]
    exact ⟨⟨_, hext⟩, by rw [hext]; rfl⟩

/-- Witness for C9: the benignly named file from the claim has no traversal
segment yet its archive is rejected. -/
theorem extract_tar_rejects_dotdot_substring_witness :
    hasTraversalSeg "a..b.txt" = false ∧
    (∃ m ∈ [TarMember.mk "a..b.txt" false []], strContains m.name ".." = true) ∧
    ((∃ e, extract_tar [TarMember.mk "a..b.txt" false []] = Except.error e) ∧
      writesOf (extract_tar [TarMember.mk "a..b.txt" false []]) = []) :=
  have h : ∃ m ∈ [TarMember.mk "a..b.txt" false []], strContains m.name ".." = true :=
    ⟨TarMember.mk "a..b.txt" false [], by decide, by decide⟩
  ⟨by decide, h, extract_tar_rejects_dotdot_substring _ h⟩

/-! ## Claim C3: the resolver against the spec contract -/

/-- C3 counterexample: with preserve_levels = 0 the claimed contract demands
an empty prefix (zero trailing segments of the root), but the Python slice
backup_parts[-0:] is the whole parts list, so the resolver returns the full
absolute path instead of just the relative part. -/
theorem get_preserved_path_zero_counterexample :
    ¬ (get_preserved_path 0 ["/", "data", "a", "x"] ["/", "data", "a"] =
        resolverSpec 0 ["/", "data", "a", "x"] ["/", "data", "a"]) := by
  decide

/-- C3 amended: for every preserve_levels of at least one, every root R and
every descendant R ++ rel, the resolver returns exactly the last
min(preserve_levels, number of parts of R) trailing segments of R followed
by the path relative to R. -/
theorem get_preserved_path_eq_spec (k : Nat) (hk : 1 ≤ k) (R rel : List String) :
    get_preserved_path k (R ++ rel) R = resolverSpec k (R ++ rel) R := by
  have hpre : R.isPrefixOf (R ++ rel) = true := by
    induction R with
    | nil => simp [List.isPrefixOf]
    | cons a R ih => simp [List.isPrefixOf, ih]
  have h1 : relativeToParts (R ++ rel) R = some rel := by
    unfold relativeToParts
    simp [hpre, List.drop_left]
  unfold get_preserved_path resolverSpec pySliceLast lastSegs
  rw [h1]
  by_cases hmin : min k R.length = 0
  · have hlen : R.length = 0 := by omega
    have hR : R = [] := List.length_eq_zero.mp hlen
    subst hR
    simp [hmin]
  · simp [hmin]

/-- Witness for C3 amended at a concrete root and descendant. -/
theorem get_preserved_path_eq_spec_witness :
    get_preserved_path 2 (["/", "data", "a"] ++ ["x"]) ["/", "data", "a"] =
      resolverSpec 2 (["/", "data", "a"] ++ ["x"]) ["/", "data", "a"] :=
  get_preserved_path_eq_spec 2 (by decide) ["/", "data", "a"] ["x"]

/-! ## Claim C5: the exclusion predicate -/

/-- C5 counterexample: the path of a compiled-bytecode file is not excluded.
should_exclude tests literal substring containment, and this .pyc path does
not contain the literal star pattern, so the parenthetical of the claim
(every path of a .pyc or .pyo file is excluded) fails on the code. -/
theorem should_exclude_pyc_counterexample :
    pyEndsWith "/data/foo.pyc" ".pyc" = true ∧
      should_exclude "/data/foo.pyc" = false := by
  decide

/-- C5 amended: should_exclude holds exactly when the path string contains
one of the five literal patterns as a substring; a compiled-bytecode file is
excluded only when its path literally contains the star pattern text. The
same predicate is the one applied both to directories and to files by the
archive walk. -/
theorem should_exclude_iff_substring (p : String) :
    should_exclude p = true ↔
      (strContains p "/.git/" = true ∨ strContains p "/.git" = true ∨
        strContains p "__pycache__" = true ∨ strContains p "*.pyc" = true ∨
        strContains p "*.pyo" = true) := by
  simp [should_exclude, exclude_patterns]

/-! ## Claim C8: tool failure is exactly a non-zero exit -/

/-- C8: encrypt_file and decrypt_file raise the encryption or decryption
error exactly when the tool exits non-zero, and the diagnostic output is
logged as a warning exactly when it is non-empty, independently of the exit
code, so diagnostic chatter by itself never constitutes failure. -/
theorem crypto_error_iff_nonzero_exit (r : ToolRun) :
    ((encrypt_file r).2.isOk = true ↔ r.exitCode = 0) ∧
    ((decrypt_file r).2.isOk = true ↔ r.exitCode = 0) ∧
    ((encrypt_file r).1 ≠ [] ↔ r.diagOutput ≠ "") ∧
    ((decrypt_file r).1 ≠ [] ↔ r.diagOutput ≠ "") ∧
    (encrypt_file r).1 = (decrypt_file r).1 := by
  unfold encrypt_file decrypt_file
  by_cases h : r.exitCode = 0 <;> by_cases h2 : r.diagOutput = "" <;>
    simp [h, h2, Except.isOk, Except.toBool]

/-! ## Claim C10: the output path of encrypt_file is inert -/

/-- C10: the command encrypt_file runs is identical for any two values of
its output_path argument (the parameter never reaches the argv), the tool
therefore writes at its default location, the input path with the encrypted
suffix appended, and the orchestrator relies on exactly that sibling path
when it passes its output argument. -/
theorem encrypt_file_output_path_ignored (pw inp o1 o2 fp : String) :
    encryptCmd pw inp o1 = encryptCmd pw inp o2 ∧
    perform_backup_encrypt_args fp = (fp, gpgDefaultOutput fp) :=
  ⟨rfl, rfl⟩

/-! ## Lemmas for rotation -/

theorem rotateLoop_eq (maxB : Nat) (u : String → Bool) (l : List String) :
    rotateLoop maxB u l =
      (l.take (l.length - maxB), (l.take (l.length - maxB)).filter u) := by
  induction l with
  | nil => simp [rotateLoop]
  | cons o rest ih =>
    by_cases h : maxB < (o :: rest).length
    · have hn : (o :: rest).length - maxB = (rest.length - maxB) + 1 := by
        simp only [List.length_cons]
        simp only [List.length_cons] at h
        omega
      simp only [rotateLoop, if_pos h, ih]
      rw [hn, List.take_succ_cons]
      cases hu : u o <;> simp [List.filter_cons, hu]
    · have hn : (o :: rest).length - maxB = 0 := by
        simp only [List.length_cons]
        simp only [List.length_cons] at h
        omega
      simp only [rotateLoop, if_neg h]
      rw [hn]
      simp

theorem charListLe_cons_iff (x y : Char) (xs ys : List Char) :
    charListLe (x :: xs) (y :: ys) = true ↔
      (x.toNat < y.toNat ∨ (x.toNat = y.toNat ∧ charListLe xs ys = true)) := by
  simp only [charListLe]
  by_cases h1 : x.toNat < y.toNat
  · simp [h1]
  · by_cases h2 : y.toNat < x.toNat
    · simp [h1, h2]
      omega
    · have he : x.toNat = y.toNat := by omega
      simp [h1, h2, he]

theorem charListLe_total : ∀ a b : List Char,
    charListLe a b = true ∨ charListLe b a = true := by
  intro a
  induction a with
  | nil => intro b; left; rfl
  | cons x xs ih =>
    intro b
    cases b with
    | nil => right; rfl
    | cons y ys =>
      rcases Nat.lt_trichotomy x.toNat y.toNat with h | h | h
      · left
        exact (charListLe_cons_iff x y xs ys).mpr (Or.inl h)
      · rcases ih ys with hh | hh
        · left
          exact (charListLe_cons_iff x y xs ys).mpr (Or.inr ⟨h, hh⟩)
        · right
          exact (charListLe_cons_iff y x ys xs).mpr (Or.inr ⟨h.symm, hh⟩)
      · right
        exact (charListLe_cons_iff y x ys xs).mpr (Or.inl h)

theorem charListLe_trans : ∀ a b c : List Char,
    charListLe a b = true → charListLe b c = true → charListLe a c = true := by
  intro a
  induction a with
  | nil => intro b c _ _; rfl
  | cons x xs ih =>
    intro b c hab hbc
    cases b with
    | nil => simp [charListLe] at hab
    | cons y ys =>
      cases c with
      | nil => simp [charListLe] at hbc
      | cons z zs =>
        apply (charListLe_cons_iff x z xs zs).mpr
        rcases (charListLe_cons_iff x y xs ys).mp hab with h1 | ⟨h1, hr1⟩ <;>
          rcases (charListLe_cons_iff y z ys zs).mp hbc with h2 | ⟨h2, hr2⟩
        · left; omega
        · left; omega
        · left; omega
        · right
          exact ⟨by omega, ih ys zs hr1 hr2⟩

/-! ## Claim C7: rotation removes exactly the oldest surplus artifacts -/

/-- C7: with M matching regular artifacts and max_backups N where M exceeds
N, rotation sorts ascending, attempts deletion of exactly the M minus N
lexicographically smallest (oldest) artifacts, leaving the N most recent;
every attempted name precedes every remaining name in the order; the set of
attempted deletions does not depend on which deletions succeed (one failure
never aborts the remaining attempts); and when every deletion succeeds the
deleted set is exactly the attempted set. -/
theorem rotate_old_backups_spec (base : String) (N : Nat)
    (dirListing : List (String × Bool)) (unlinkOk : String → Bool)
    (hM : N < (matchingNames base dirListing).length) :
    (rotate_old_backups base N dirListing unlinkOk).1 =
        (sortedBackups base dirListing).take ((matchingNames base dirListing).length - N) ∧
    (rotate_old_backups base N dirListing unlinkOk).1.length =
        (matchingNames base dirListing).length - N ∧
    List.Sorted (fun a b => strLe a b = true) (sortedBackups base dirListing) ∧
    (sortedBackups base dirListing).Perm (matchingNames base dirListing) ∧
    ((sortedBackups base dirListing).drop
        ((matchingNames base dirListing).length - N)).length = N ∧
    (∀ a ∈ (rotate_old_backups base N dirListing unlinkOk).1,
      ∀ b ∈ (sortedBackups base dirListing).drop
          ((matchingNames base dirListing).length - N),
        strLe a b = true) ∧
    (∀ u2 : String → Bool,
      (rotate_old_backups base N dirListing u2).1 =
        (rotate_old_backups base N dirListing unlinkOk).1) ∧
    ((∀ a ∈ (rotate_old_backups base N dirListing unlinkOk).1, unlinkOk a = true) →
      (rotate_old_backups base N dirListing unlinkOk).2 =
        (rotate_old_backups base N dirListing unlinkOk).1) := by
  haveI htot : IsTotal String (fun a b => strLe a b = true) :=
    ⟨fun a b => charListLe_total a.data b.data⟩
  haveI htrans : IsTrans String (fun a b => strLe a b = true) :=
    ⟨fun a b c => charListLe_trans a.data b.data c.data⟩
  have hperm : (sortedBackups base dirListing).Perm (matchingNames base dirListing) :=
    List.perm_insertionSort _ _
  have hlen : (sortedBackups base dirListing).length =
      (matchingNames base dirListing).length := hperm.length_eq
  have hsorted : List.Sorted (fun a b => strLe a b = true) (sortedBackups base dirListing) :=
    List.sorted_insertionSort _ _
  have hrot : ∀ u : String → Bool, rotate_old_backups base N dirListing u =
      ((sortedBackups base dirListing).take ((matchingNames base dirListing).length - N),
        ((sortedBackups base dirListing).take
          ((matchingNames base dirListing).length - N)).filter u) := by
    intro u
    unfold rotate_old_backups
    rw [rotateLoop_eq, hlen]
  refine ⟨by rw [hrot], ?_, hsorted, hperm, ?_, ?_, ?_, ?_⟩
  · rw [hrot]
    simp only [List.length_take, hlen]
    omega
  · simp only [List.length_drop, hlen]
    omega
  · intro a ha b hb
    rw [hrot] at ha
    exact hsorted.rel_of_mem_take_of_mem_drop ha hb
  · intro u2
    rw [hrot, hrot]
  · intro hall
    rw [hrot] at hall ⊢
    simp only
    exact List.filter_eq_self.mpr hall

/-- Witness for C7: three artifacts, max_backups one; the two oldest are the
attempted deletions. -/
theorem rotate_old_backups_spec_witness :
    1 < (matchingNames "bk"
        [("bk.20240103000000.gz.gpg", true), ("bk.20240101000000.gz.gpg", true),
          ("bk.20240102000000.gz.gpg", true)]).length ∧
    (rotate_old_backups "bk" 1
        [("bk.20240103000000.gz.gpg", true), ("bk.20240101000000.gz.gpg", true),
          ("bk.20240102000000.gz.gpg", true)] (fun _ => true)).1 =
      (sortedBackups "bk"
        [("bk.20240103000000.gz.gpg", true), ("bk.20240101000000.gz.gpg", true),
          ("bk.20240102000000.gz.gpg", true)]).take
        ((matchingNames "bk"
          [("bk.20240103000000.gz.gpg", true), ("bk.20240101000000.gz.gpg", true),
            ("bk.20240102000000.gz.gpg", true)]).length - 1) :=
  ⟨by decide,
    (rotate_old_backups_spec "bk" 1
      [("bk.20240103000000.gz.gpg", true), ("bk.20240101000000.gz.gpg", true),
        ("bk.20240102000000.gz.gpg", true)] (fun _ => true) (by decide)).1⟩

/-! ## Lemmas about path rendering -/

theorem stringDataInj {s t : String} (h : s.data = t.data) : s = t := by
  cases s with
  | mk a =>
    cases t with
    | mk b => exact congrArg String.mk h

theorem str_eq_empty_of_data_nil (s : String) (h : s.data = []) : s = "" :=
  stringDataInj h

theorem not_mem_of_hasSub_single (l : List Char) (c : Char) (h : hasSub l [c] = false) :
    c ∉ l := by
  induction l with
  | nil => simp
  | cons a as ih =>
    intro hmem
    simp only [hasSub, Bool.or_eq_false_iff] at h
    obtain ⟨h1, h2⟩ := h
    rcases List.mem_cons.mp hmem with heq | hmem2
    · subst heq
      simp [hasPref, hasPref_nil] at h1
    · exact ih h2 hmem2

theorem strContains_slash_false_notmem (s : String) (h : strContains s "/" = false) :
    '/' ∉ s.data :=
  not_mem_of_hasSub_single s.data '/' h

theorem validSeg_parts (s : String) (h : validSeg s = true) :
    s ≠ "" ∧ strContains s "/" = false ∧ s ≠ "." ∧ s ≠ ".." := by
  simp only [validSeg, Bool.and_eq_true, Bool.not_eq_eq_eq_not, Bool.not_true,
    beq_eq_false_iff_ne, ne_eq, Bool.not_eq_true] at h
  exact ⟨h.1.1.1, h.1.1.2, h.1.2, h.2⟩

theorem splitSlash_no_slash (a : List Char) (ha : '/' ∉ a) : splitSlash a = [a] := by
  induction a with
  | nil => rfl
  | cons c cs ih =>
    have hne : c ≠ '/' := fun hh => ha (by rw [hh]; exact List.mem_cons_self _ _)
    have hc : (c == '/') = false := beq_eq_false_iff_ne.mpr hne
    have hcs := ih (fun hm => ha (List.mem_cons_of_mem _ hm))
    simp [splitSlash, hc, hcs]

theorem splitSlash_append_slash (a b : List Char) (ha : '/' ∉ a) :
    splitSlash (a ++ '/' :: b) = a :: splitSlash b := by
  induction a with
  | nil => simp [splitSlash]
  | cons c cs ih =>
    have hne : c ≠ '/' := fun hh => ha (by rw [hh]; exact List.mem_cons_self _ _)
    have hc : (c == '/') = false := beq_eq_false_iff_ne.mpr hne
    have hcs := ih (fun hm => ha (List.mem_cons_of_mem _ hm))
    simp [splitSlash, hc, hcs]

theorem data_append3 (x y : String) : (x ++ "/" ++ y).data = x.data ++ '/' :: y.data := by
  simp [String.data_append]

theorem joinRel_cons_cons (s s2 : String) (r2 : List String) :
    joinRel (s :: s2 :: r2) = s ++ "/" ++ joinRel (s2 :: r2) := rfl

theorem splitSlash_joinRel : ∀ (p : List String), p ≠ [] →
    (∀ s ∈ p, strContains s "/" = false) →
    splitSlash (joinRel p).data = p.map String.data := by
  intro p
  induction p with
  | nil => intro h; exact absurd rfl h
  | cons s rest ih =>
    intro _ hall
    cases rest with
    | nil =>
      have := splitSlash_no_slash s.data (strContains_slash_false_notmem s (hall s (by simp)))
      simpa [joinRel] using this
    | cons s2 rest2 =>
      rw [joinRel_cons_cons, data_append3,
        splitSlash_append_slash _ _ (strContains_slash_false_notmem s (hall s (by simp))),
        ih (by simp) (fun x hx => hall x (List.mem_cons_of_mem _ hx))]
      simp

theorem strOfParts_cons_ne_root (s : String) (rest : List String) (h : s ≠ "/") :
    strOfParts (s :: rest) = joinRel (s :: rest) := by
  simp [strOfParts, h]

theorem joinRel_not_slash_head (s : String) (rest : List String)
    (h0 : s ≠ "") (h1 : strContains s "/" = false) :
    pyStartsWith (joinRel (s :: rest)) "/" = false := by
  have hnm : '/' ∉ s.data := strContains_slash_false_notmem s h1
  obtain ⟨c, cs, hdata⟩ : ∃ c cs, s.data = c :: cs := by
    cases hh : s.data with
    | nil => exact absurd (str_eq_empty_of_data_nil s hh) h0
    | cons c cs => exact ⟨c, cs, rfl⟩
  have hc : (c == '/') = false := by
    apply beq_eq_false_iff_ne.mpr
    intro hh
    exact hnm (by rw [hdata, hh]; exact List.mem_cons_self _ _)
  unfold pyStartsWith
  cases rest with
  | nil =>
    show hasPref (joinRel [s]).data ['/'] = false
    show hasPref s.data ['/'] = false
    rw [hdata]
    simp [hasPref, hc]
  | cons s2 r2 =>
    rw [joinRel_cons_cons, data_append3, hdata]
    show hasPref (c :: (cs ++ '/' :: (joinRel (s2 :: r2)).data)) ['/'] = false
    simp [hasPref, hc]

theorem joinRel_no_traversal (p : List String) (hne : p ≠ [])
    (hall : ∀ s ∈ p, validSeg s = true) :
    hasTraversalSeg (joinRel p) = false := by
  have hslash : ∀ s ∈ p, strContains s "/" = false := fun s hs =>
    (validSeg_parts s (hall s hs)).2.1
  unfold hasTraversalSeg segmentsOf
  rw [splitSlash_joinRel p hne hslash]
  simp only [decide_eq_false_iff_not]
  intro hmem
  obtain ⟨s, hs, hdata⟩ := List.mem_map.mp hmem
  have hss : s = ".." := stringDataInj (by rw [hdata])
  exact (validSeg_parts s (hall s hs)).2.2.2 hss

theorem strOfParts_safe (p : List String) (hne : p ≠ [])
    (hall : ∀ s ∈ p, validSeg s = true) :
    pyStartsWith (strOfParts p) "/" = false ∧ hasTraversalSeg (strOfParts p) = false := by
  obtain ⟨s, rest, rfl⟩ : ∃ s rest, p = s :: rest := by
    cases p with
    | nil => exact absurd rfl hne
    | cons s rest => exact ⟨s, rest, rfl⟩
  have hs := validSeg_parts s (hall s (by simp))
  have hroot : s ≠ "/" := by
    intro hh
    rw [hh] at hs
    exact absurd hs.2.1 (by decide)
  rw [strOfParts_cons_ne_root s rest hroot]
  exact ⟨joinRel_not_slash_head s rest hs.1 hs.2.1,
    joinRel_no_traversal _ (by simp) hall⟩

/-! ## Lemmas ruling out a substring across the join -/

theorem hasPref_slash_extend (a b p : List Char) (hp : '/' ∉ p)
    (h : hasPref (a ++ '/' :: b) p = true) : hasPref a p = true := by
  induction a generalizing p with
  | nil =>
    cases p with
    | nil => rfl
    | cons x ps =>
      exfalso
      simp only [List.nil_append, hasPref, Bool.and_eq_true] at h
      have : '/' = x := eq_of_beq h.1
      exact hp (by rw [this]; exact List.mem_cons_self _ _)
  | cons c cs ih =>
    cases p with
    | nil => rfl
    | cons x ps =>
      simp only [List.cons_append, hasPref, Bool.and_eq_true] at h ⊢
      exact ⟨h.1, ih ps (fun hm => hp (List.mem_cons_of_mem _ hm)) h.2⟩

theorem hasSub_slash_append (a b p : List Char) (hpne : p ≠ []) (hp : '/' ∉ p)
    (ha : hasSub a p = false) (hb : hasSub b p = false) :
    hasSub (a ++ '/' :: b) p = false := by
  induction a with
  | nil =>
    simp only [List.nil_append, hasSub, Bool.or_eq_false_iff]
    refine ⟨?_, hb⟩
    cases p with
    | nil => exact absurd rfl hpne
    | cons x ps =>
      have hx : ('/' == x) = false := by
        apply beq_eq_false_iff_ne.mpr
        intro hh
        exact hp (by rw [hh]; exact List.mem_cons_self _ _)
      simp [hasPref, hx]
  | cons c cs ih =>
    have ha1 : hasPref (c :: cs) p = false ∧ hasSub cs p = false := by
      simpa [hasSub, Bool.or_eq_false_iff] using ha
    simp only [List.cons_append, hasSub, Bool.or_eq_false_iff]
    constructor
    · cases hres : hasPref (c :: (cs ++ '/' :: b)) p with
      | false => rfl
      | true =>
        have := hasPref_slash_extend (c :: cs) b p hp (by simpa using hres)
        simp [ha1.1] at this
    · exact ih ha1.2

theorem joinRel_no_sub (p : List String) (pat : String) (hpne : pat.data ≠ [])
    (hp : '/' ∉ pat.data) (hall : ∀ s ∈ p, strContains s pat = false) :
    strContains (joinRel p) pat = false := by
  induction p with
  | nil =>
    unfold strContains joinRel
    show hasSub [] pat.data = false
    simp [hasSub, List.isEmpty_iff, hpne]
  | cons s rest ih =>
    cases rest with
    | nil => exact hall s (by simp)
    | cons s2 r2 =>
      unfold strContains
      rw [joinRel_cons_cons, data_append3]
      exact hasSub_slash_append _ _ _ hpne hp (hall s (by simp))
        (ih (fun x hx => hall x (List.mem_cons_of_mem _ hx)))

/-! ## Lemmas about the resolver on true descendants -/

theorem isPrefixOf_append_self (R rest : List String) :
    R.isPrefixOf (R ++ rest) = true := by
  induction R with
  | nil => simp [List.isPrefixOf]
  | cons a R ih => simp [List.isPrefixOf, ih]

theorem get_preserved_path_descendant (k : Nat) (R rest : List String) :
    get_preserved_path k (R ++ rest) R =
      pySliceLast R (min k R.length) ++ rest := by
  unfold get_preserved_path relativeToParts
  simp [isPrefixOf_append_self, List.drop_left]

theorem preserved_parts_of_bounded (k : Nat) (t : List String) (hk1 : 1 ≤ k)
    (hk2 : k < ("/" :: t).length) :
    pySliceLast ("/" :: t) (min k ("/" :: t).length) = t.drop (t.length - k) := by
  have hkt : k ≤ t.length := by
    simp only [List.length_cons] at hk2
    omega
  have hmin : min k ("/" :: t).length = k := by
    simp only [List.length_cons]
    omega
  rw [hmin]
  unfold pySliceLast
  rw [if_neg (by omega)]
  have hlen : ("/" :: t).length - k = (t.length - k) + 1 := by
    simp only [List.length_cons]
    omega
  rw [hlen, List.drop_succ_cons]

theorem lastSegs_root_bounded (k : Nat) (t : List String) (hk1 : 1 ≤ k)
    (hk2 : k < ("/" :: t).length) :
    lastSegs (min k ("/" :: t).length) ("/" :: t) = t.drop (t.length - k) := by
  have hkt : k ≤ t.length := by
    simp only [List.length_cons] at hk2
    omega
  have hmin : min k ("/" :: t).length = k := by
    simp only [List.length_cons]
    omega
  rw [hmin]
  unfold lastSegs
  have hlen : ("/" :: t).length - k = (t.length - k) + 1 := by
    simp only [List.length_cons]
    omega
  rw [hlen, List.drop_succ_cons]

/-! ## Transporting name predicates along listing paths -/

theorem eachName_topItemName (P : String → Bool) (nm : String) :
    ∀ cs : FsListing, eachName P cs = true → topItemName nm cs → P nm = true := by
  intro cs
  induction cs with
  | nil => intro _ h; exact absurd h id
  | file nm2 c st rest ih =>
    intro hall h
    simp only [eachName, Bool.and_eq_true] at hall
    rcases h with h | h
    · rw [← h]; exact hall.1
    · exact ih hall.2 h
  | dir nm2 st sub rest ihsub ihrest =>
    intro hall h
    simp only [eachName, Bool.and_eq_true] at hall
    rcases h with h | h
    · rw [← h]; exact hall.1.1
    · exact ihrest hall.2 h

theorem eachName_topDir (P : String → Bool) (nm : String) (sub : FsListing) :
    ∀ cs : FsListing, eachName P cs = true → topDir nm sub cs →
      P nm = true ∧ eachName P sub = true := by
  intro cs
  induction cs with
  | nil => intro _ h; exact absurd h id
  | file nm2 c st rest ih =>
    intro hall h
    simp only [eachName, Bool.and_eq_true] at hall
    exact ih hall.2 h
  | dir nm2 st sub2 rest ihsub ihrest =>
    intro hall h
    simp only [eachName, Bool.and_eq_true] at hall
    rcases h with ⟨h1, h2⟩ | h
    · rw [← h1, ← h2]
      exact ⟨hall.1.1, hall.1.2⟩
    · exact ihrest hall.2 h

theorem eachName_pathInListing (P : String → Bool) :
    ∀ (rel : List String) (nm : String) (cs : FsListing),
      eachName P cs = true → pathInListing rel nm cs →
      (∀ s ∈ rel, P s = true) ∧ P nm = true := by
  intro rel
  induction rel with
  | nil =>
    intro nm cs hall h
    exact ⟨by simp, eachName_topItemName P nm cs hall h⟩
  | cons d rel2 ih =>
    intro nm cs hall h
    obtain ⟨sub, htd, hp⟩ := h
    obtain ⟨hd, hsub⟩ := eachName_topDir P d sub cs hall htd
    obtain ⟨hrel2, hnm⟩ := ih nm sub hsub hp
    refine ⟨?_, hnm⟩
    intro s hs
    rcases List.mem_cons.mp hs with rfl | hs2
    · exact hd
    · exact hrel2 s hs2

/-! ## Lifting listing paths over sibling and parent constructors -/

theorem pathInListing_lift_file (rel : List String) (nm nm2 : String) (c : List Nat)
    (st : ItemStatus) (rest : FsListing) (h : pathInListing rel nm rest) :
    pathInListing rel nm (FsListing.file nm2 c st rest) := by
  cases rel with
  | nil => exact Or.inr h
  | cons d rel2 =>
    obtain ⟨sub, h1, h2⟩ := h
    exact ⟨sub, h1, h2⟩

theorem pathInListing_lift_dir_rest (rel : List String) (nm nm2 : String)
    (st : ItemStatus) (sub rest : FsListing) (h : pathInListing rel nm rest) :
    pathInListing rel nm (FsListing.dir nm2 st sub rest) := by
  cases rel with
  | nil => exact Or.inr h
  | cons d rel2 =>
    obtain ⟨s2, h1, h2⟩ := h
    exact ⟨s2, Or.inr h1, h2⟩

theorem pathInListing_here_dir (rel : List String) (nm nm2 : String)
    (st : ItemStatus) (sub rest : FsListing) (h : pathInListing rel nm sub) :
    pathInListing (nm2 :: rel) nm (FsListing.dir nm2 st sub rest) :=
  ⟨sub, Or.inl ⟨rfl, rfl⟩, h⟩

theorem topItemName_pathInListing_nil (nm : String) (cs : FsListing)
    (h : topItemName nm cs) : pathInListing [] nm cs := h

/-! ## Shape of the entries the walk writes -/

theorem passDirs_entries_shape (k : Nat) (bdir cur : List String) :
    ∀ (cs : FsListing) (w : WalkOut), passDirs k bdir cur cs = Except.ok w →
    ∀ m ∈ w.entries, ∃ nm, topItemName nm cs ∧ m.isDir = true ∧
      m.name = strOfParts (get_preserved_path k (cur ++ [nm]) bdir) := by
  intro cs
  induction cs with
  | nil =>
    intro w h m hm
    have hw : emptyOut = w := by simpa [passDirs] using h
    rw [← hw] at hm
    simp [emptyOut] at hm
  | file nm2 c st rest ih =>
    intro w h m hm
    obtain ⟨nm, h1, h2, h3⟩ := ih w (by simpa [passDirs] using h) m hm
    exact ⟨nm, Or.inr h1, h2, h3⟩
  | dir nm2 st sub rest ihsub ihrest =>
    intro w h m hm
    simp only [passDirs] at h
    by_cases he1 : should_exclude (strOfParts cur ++ "/" ++ nm2) = true
    · rw [if_pos he1] at h
      obtain ⟨nm, h1, h2, h3⟩ := ihrest w h m hm
      exact ⟨nm, Or.inr h1, h2, h3⟩
    · rw [if_neg he1] at h
      by_cases he2 : should_exclude (strOfParts (cur ++ [nm2])) = true
      · rw [if_pos he2] at h
        obtain ⟨nm, h1, h2, h3⟩ := ihrest w h m hm
        exact ⟨nm, Or.inr h1, h2, h3⟩
      · rw [if_neg he2] at h
        cases st with
        | ok =>
          cases hrest : passDirs k bdir cur rest with
          | error e =>
            rw [hrest] at h
            simp only [Except.map] at h
            exact Except.noConfusion h
          | ok w2 =>
            rw [hrest] at h
            simp only [Except.map, Except.ok.injEq] at h
            subst h
            simp only [appendOut] at hm
            rcases List.mem_cons.mp (by simpa using hm) with rfl | hm2
            · exact ⟨nm2, Or.inl rfl, rfl, rfl⟩
            · obtain ⟨nm, h1, h2, h3⟩ := ihrest w2 hrest m hm2
              exact ⟨nm, Or.inr h1, h2, h3⟩
        | permDenied =>
          cases hrest : passDirs k bdir cur rest with
          | error e =>
            rw [hrest] at h
            simp only [Except.map] at h
            exact Except.noConfusion h
          | ok w2 =>
            rw [hrest] at h
            simp only [Except.map, Except.ok.injEq] at h
            subst h
            simp only [appendOut, List.nil_append] at hm
            obtain ⟨nm, h1, h2, h3⟩ := ihrest w2 hrest m hm
            exact ⟨nm, Or.inr h1, h2, h3⟩
        | otherErr => exact Except.noConfusion h

theorem passFiles_entries_shape (k : Nat) (bdir cur : List String) :
    ∀ (cs : FsListing) (w : WalkOut), passFiles k bdir cur cs = Except.ok w →
    ∀ m ∈ w.entries, ∃ nm, topItemName nm cs ∧ m.isDir = false ∧
      m.name = tarAddArcname (strOfParts (get_preserved_path k (cur ++ [nm]) bdir)) := by
  intro cs
  induction cs with
  | nil =>
    intro w h m hm
    have hw : emptyOut = w := by simpa [passFiles] using h
    rw [← hw] at hm
    simp [emptyOut] at hm
  | dir nm2 st sub rest ihsub ihrest =>
    intro w h m hm
    obtain ⟨nm, h1, h2, h3⟩ := ihrest w (by simpa [passFiles] using h) m hm
    exact ⟨nm, Or.inr h1, h2, h3⟩
  | file nm2 c st rest ih =>
    intro w h m hm
    simp only [passFiles] at h
    by_cases he2 : should_exclude (strOfParts (cur ++ [nm2])) = true
    · rw [if_pos he2] at h
      obtain ⟨nm, h1, h2, h3⟩ := ih w h m hm
      exact ⟨nm, Or.inr h1, h2, h3⟩
    · rw [if_neg he2] at h
      cases st with
      | ok =>
        cases hrest : passFiles k bdir cur rest with
        | error e =>
          rw [hrest] at h
          simp only [Except.map] at h
          exact Except.noConfusion h
        | ok w2 =>
          rw [hrest] at h
          simp only [Except.map, Except.ok.injEq] at h
          subst h
          simp only [appendOut] at hm
          rcases List.mem_cons.mp (by simpa using hm) with rfl | hm2
          · exact ⟨nm2, Or.inl rfl, rfl, rfl⟩
          · obtain ⟨nm, h1, h2, h3⟩ := ih w2 hrest m hm2
            exact ⟨nm, Or.inr h1, h2, h3⟩
      | permDenied =>
        cases hrest : passFiles k bdir cur rest with
        | error e =>
          rw [hrest] at h
          simp only [Except.map] at h
          exact Except.noConfusion h
        | ok w2 =>
          rw [hrest] at h
          simp only [Except.map, Except.ok.injEq] at h
          subst h
          simp only [appendOut, List.nil_append] at hm
          obtain ⟨nm, h1, h2, h3⟩ := ih w2 hrest m hm
          exact ⟨nm, Or.inr h1, h2, h3⟩
      | otherErr => exact Except.noConfusion h

theorem walkSubs_entries_shape (k : Nat) (bdir : List String) :
    ∀ (cs : FsListing) (cur : List String) (w : WalkOut),
      walkSubs k bdir cur cs = Except.ok w →
    ∀ m ∈ w.entries, ∃ rel nm, pathInListing rel nm cs ∧
      (m.name = strOfParts (get_preserved_path k ((cur ++ rel) ++ [nm]) bdir) ∨
        m.name = tarAddArcname (strOfParts (get_preserved_path k ((cur ++ rel) ++ [nm]) bdir))) := by
  intro cs
  induction cs with
  | nil =>
    intro cur w h m hm
    have hw : emptyOut = w := by simpa [walkSubs] using h
    rw [← hw] at hm
    simp [emptyOut] at hm
  | file nm2 c st rest ih =>
    intro cur w h m hm
    obtain ⟨rel, nm, h1, h2⟩ := ih cur w (by simpa [walkSubs] using h) m hm
    exact ⟨rel, nm, pathInListing_lift_file rel nm nm2 c st rest h1, h2⟩
  | dir nm2 st sub rest ihsub ihrest =>
    intro cur w h m hm
    simp only [walkSubs] at h
    by_cases he1 : should_exclude (strOfParts cur ++ "/" ++ nm2) = true
    · rw [if_pos he1] at h
      obtain ⟨rel, nm, h1, h2⟩ := ihrest cur w h m hm
      exact ⟨rel, nm, pathInListing_lift_dir_rest rel nm nm2 st sub rest h1, h2⟩
    · rw [if_neg he1] at h
      cases ha : passDirs k bdir (cur ++ [nm2]) sub with
      | error e =>
        rw [ha] at h
        simp only [Bind.bind, Except.bind] at h
        exact Except.noConfusion h
      | ok wa =>
        rw [ha] at h
        simp only [Bind.bind, Except.bind] at h
        cases hb : passFiles k bdir (cur ++ [nm2]) sub with
        | error e =>
          rw [hb] at h
          exact Except.noConfusion h
        | ok wb =>
          rw [hb] at h
          cases hs : walkSubs k bdir (cur ++ [nm2]) sub with
          | error e =>
            rw [hs] at h
            exact Except.noConfusion h
          | ok ws =>
            rw [hs] at h
            cases hr : walkSubs k bdir cur rest with
            | error e =>
              rw [hr] at h
              exact Except.noConfusion h
            | ok wr =>
              rw [hr] at h
              simp only [Except.ok.injEq] at h
              subst h
              simp only [appendOut] at hm
              rcases (by simpa using hm :
                  m ∈ wa.entries ∨ m ∈ wb.entries ∨ m ∈ ws.entries ∨ m ∈ wr.entries) with
                hma | hmb | hms | hmr
              · obtain ⟨nm, h1, h2, h3⟩ :=
                  passDirs_entries_shape k bdir (cur ++ [nm2]) sub wa ha m hma
                refine ⟨[nm2], nm, pathInListing_here_dir [] nm nm2 st sub rest h1, ?_⟩
                left
                rw [h3]
              · obtain ⟨nm, h1, h2, h3⟩ :=
                  passFiles_entries_shape k bdir (cur ++ [nm2]) sub wb hb m hmb
                refine ⟨[nm2], nm, pathInListing_here_dir [] nm nm2 st sub rest h1, ?_⟩
                right
                rw [h3]
              · obtain ⟨rel, nm, h1, h2⟩ := ihsub (cur ++ [nm2]) ws hs m hms
                refine ⟨nm2 :: rel, nm,
                  pathInListing_here_dir rel nm nm2 st sub rest h1, ?_⟩
                rw [show cur ++ nm2 :: rel = (cur ++ [nm2]) ++ rel by
                  rw [List.append_cons]]
                exact h2
              · obtain ⟨rel, nm, h1, h2⟩ := ihrest cur wr hr m hmr
                exact ⟨rel, nm,
                  pathInListing_lift_dir_rest rel nm nm2 st sub rest h1, h2⟩

theorem walkLevel_entries_shape (k : Nat) (bdir cur : List String) (cs : FsListing)
    (w : WalkOut) (h : walkLevel k bdir cur cs = Except.ok w) :
    ∀ m ∈ w.entries, ∃ rel nm, pathInListing rel nm cs ∧
      (m.name = strOfParts (get_preserved_path k ((cur ++ rel) ++ [nm]) bdir) ∨
        m.name = tarAddArcname (strOfParts (get_preserved_path k ((cur ++ rel) ++ [nm]) bdir))) := by
  intro m hm
  unfold walkLevel at h
  cases ha : passDirs k bdir cur cs with
  | error e =>
    rw [ha] at h
    simp only [Bind.bind, Except.bind] at h
    exact Except.noConfusion h
  | ok wa =>
    rw [ha] at h
    simp only [Bind.bind, Except.bind] at h
    cases hb : passFiles k bdir cur cs with
    | error e =>
      rw [hb] at h
      exact Except.noConfusion h
    | ok wb =>
      rw [hb] at h
      cases hs : walkSubs k bdir cur cs with
      | error e =>
        rw [hs] at h
        exact Except.noConfusion h
      | ok ws =>
        rw [hs] at h
        simp only [Except.ok.injEq] at h
        subst h
        simp only [appendOut] at hm
        rcases (by simpa using hm :
            m ∈ wa.entries ∨ m ∈ wb.entries ∨ m ∈ ws.entries) with hma | hmb | hms
        · obtain ⟨nm, h1, h2, h3⟩ := passDirs_entries_shape k bdir cur cs wa ha m hma
          refine ⟨[], nm, topItemName_pathInListing_nil nm cs h1, ?_⟩
          left
          rw [h3]
          simp
        · obtain ⟨nm, h1, h2, h3⟩ := passFiles_entries_shape k bdir cur cs wb hb m hmb
          refine ⟨[], nm, topItemName_pathInListing_nil nm cs h1, ?_⟩
          right
          rw [h3]
          simp
        · exact walkSubs_entries_shape k bdir cs cur ws hs m hms

/-! ## Claim C2: archive-relative path safety at write time -/

theorem tarAddArcname_id (s : String) (h : pyStartsWith s "/" = false) :
    tarAddArcname s = s := by
  apply stringDataInj
  show dropSlashes s.data = s.data
  cases hd : s.data with
  | nil => simp [dropSlashes]
  | cons c cs =>
    unfold pyStartsWith at h
    rw [hd] at h
    have hc : (c == '/') = false := by
      simpa [hasPref, hasPref_nil] using h
    simp [dropSlashes, hc]

theorem archiveTargets_single (k : Nat) (bdir : List String) (cs : FsListing) :
    archiveTargets k [⟨bdir, cs, true⟩] =
      match processTarget k bdir cs with
      | Except.error e =>
        Except.error ("Error processing " ++ strOfParts bdir ++ ": " ++ e)
      | Except.ok w => Except.ok (appendOut w emptyOut) := by
  cases hpt : processTarget k bdir cs with
  | error e => simp [archiveTargets, hpt]
  | ok w => simp [archiveTargets, hpt, Except.map]

/-- The name the resolver produces for a well-formed descendant below a
well-formed absolute root with a bounded preserve level never begins with the
root marker and never contains a traversal segment. -/
theorem preserved_name_props (k : Nat) (t rel : List String) (nm : String)
    (hk1 : 1 ≤ k) (hk2 : k < ("/" :: t).length)
    (ht : ∀ s ∈ t, validSeg s = true)
    (hrel : ∀ s ∈ rel, validSeg s = true) (hnm : validSeg nm = true) :
    pyStartsWith (strOfParts
        (get_preserved_path k ((("/" :: t) ++ rel) ++ [nm]) ("/" :: t))) "/" = false ∧
    hasTraversalSeg (strOfParts
        (get_preserved_path k ((("/" :: t) ++ rel) ++ [nm]) ("/" :: t))) = false := by
  rw [List.append_assoc, get_preserved_path_descendant,
    preserved_parts_of_bounded k t hk1 hk2]
  apply strOfParts_safe
  · simp
  · intro s hs
    rcases List.mem_append.mp hs with hs1 | hs2
    · exact ht s (List.drop_subset _ _ hs1)
    · rcases List.mem_append.mp hs2 with hs3 | hs4
      · exact hrel s hs3
      · rw [List.mem_singleton.mp hs4]
        exact hnm

/-- C2 counterexample: with the configured non-negative preserve_levels zero
the builder writes a directory header whose recorded archive path is the
absolute source path, beginning with the root marker. -/
theorem create_tar_archive_root_marker_counterexample :
    ¬ builderNamesSafe 0 [⟨["/", "data", "a"],
      FsListing.dir "sub" ItemStatus.ok FsListing.nil
        (FsListing.file "f" [1] ItemStatus.ok FsListing.nil), true⟩] := by
  intro h
  have h2 := (h ⟨[⟨"/data/a/sub", true, []⟩, ⟨"data/a/f", false, [1]⟩], [], 1⟩ rfl
      ⟨"/data/a/sub", true, []⟩ (by decide)).1
  exact absurd h2 (by decide)

/-- C2 amended: for every BackupTarget whose resolved absolute root has
well-formed segments, every tree of well-formed entry names, and every
preserve_levels k with 1 ≤ k < number of root parts (root marker included),
every archive-relative path the builder writes is free of a leading root
marker and of parent-traversal segments. -/
theorem builder_names_safe_bounded (k : Nat) (t : List String) (cs : FsListing)
    (hk1 : 1 ≤ k) (hk2 : k < ("/" :: t).length)
    (ht : ∀ s ∈ t, validSeg s = true) (hwf : wfNames cs = true) :
    builderNamesSafe k [⟨"/" :: t, cs, true⟩] := by
  intro w hw m hm
  unfold create_tar_archive at hw
  cases hat : archiveTargets k [⟨"/" :: t, cs, true⟩] with
  | error e =>
    rw [hat] at hw
    dsimp only at hw
    exact Except.noConfusion hw
  | ok w0 =>
    rw [hat] at hw
    dsimp only at hw
    by_cases hz : w0.srcSize = 0
    · rw [if_pos hz] at hw
      exact Except.noConfusion hw
    · rw [if_neg hz] at hw
      have hww : w0 = w := by simpa using hw
      subst hww
      rw [archiveTargets_single] at hat
      cases hpt : processTarget k ("/" :: t) cs with
      | error e =>
        rw [hpt] at hat
        exact Except.noConfusion hat
      | ok w1 =>
        rw [hpt] at hat
        have h10 : appendOut w1 emptyOut = w0 := by simpa using hat
        rw [← h10] at hm
        have hm1 : m ∈ w1.entries := by
          simpa [appendOut, emptyOut] using hm
        obtain ⟨rel, nm, hpath, hshape⟩ :=
          walkLevel_entries_shape k ("/" :: t) ("/" :: t) cs w1 hpt m hm1
        obtain ⟨hrel, hnm⟩ := eachName_pathInListing validSeg rel nm cs hwf hpath
        have hsafe := preserved_name_props k t rel nm hk1 hk2 ht hrel hnm
        rcases hshape with hn | hn
        · rw [hn]
          exact hsafe
        · rw [hn, tarAddArcname_id _ hsafe.1]
          exact hsafe

/-- Witness for C2 amended at a concrete two-level tree. -/
theorem builder_names_safe_bounded_witness :
    builderNamesSafe 2 [⟨["/", "data", "a"],
      FsListing.dir "sub" ItemStatus.ok (FsListing.file "g" [2] ItemStatus.ok FsListing.nil)
        (FsListing.file "f" [1] ItemStatus.ok FsListing.nil), true⟩] :=
  builder_names_safe_bounded 2 ["data", "a"] _ (by decide) (by decide) (by decide) (by decide)

/-! ## The walk under statuses: success, mirror equality, and failure -/

theorem passDirs_ok_of_noHard (k : Nat) (bdir : List String) :
    ∀ (cs : FsListing) (cur : List String), noHardErr cs = true →
      ∃ w, passDirs k bdir cur cs = Except.ok w := by
  intro cs
  induction cs with
  | nil => intro cur _; exact ⟨emptyOut, rfl⟩
  | file nm c st rest ih =>
    intro cur hnh
    simp only [noHardErr, Bool.and_eq_true] at hnh
    obtain ⟨w, hw⟩ := ih cur hnh.2
    exact ⟨w, by simpa [passDirs] using hw⟩
  | dir nm st sub rest ihsub ihrest =>
    intro cur hnh
    simp only [noHardErr, Bool.and_eq_true] at hnh
    obtain ⟨⟨hst, hnsub⟩, hnrest⟩ := hnh
    obtain ⟨w, hw⟩ := ihrest cur hnrest
    by_cases he1 : should_exclude (strOfParts cur ++ "/" ++ nm) = true
    · exact ⟨w, by simp [passDirs, he1, hw]⟩
    · by_cases he2 : should_exclude (strOfParts (cur ++ [nm])) = true
      · exact ⟨w, by simp [passDirs, he1, he2, hw]⟩
      · cases st with
        | ok =>
          refine ⟨appendOut ⟨[⟨strOfParts (get_preserved_path k (cur ++ [nm]) bdir),
            true, []⟩], [], 0⟩ w, ?_⟩
          simp [passDirs, he1, he2, hw, Except.map]
        | permDenied =>
          refine ⟨appendOut ⟨[], [strOfParts (cur ++ [nm])], 0⟩ w, ?_⟩
          simp [passDirs, he1, he2, hw, Except.map]
        | otherErr => exact absurd hst (by decide)

theorem passFiles_ok_of_noHard (k : Nat) (bdir : List String) :
    ∀ (cs : FsListing) (cur : List String), noHardErr cs = true →
      ∃ w, passFiles k bdir cur cs = Except.ok w := by
  intro cs
  induction cs with
  | nil => intro cur _; exact ⟨emptyOut, rfl⟩
  | dir nm st sub rest ihsub ihrest =>
    intro cur hnh
    simp only [noHardErr, Bool.and_eq_true] at hnh
    obtain ⟨w, hw⟩ := ihrest cur hnh.2
    exact ⟨w, by simpa [passFiles] using hw⟩
  | file nm c st rest ih =>
    intro cur hnh
    simp only [noHardErr, Bool.and_eq_true] at hnh
    obtain ⟨hst, hnrest⟩ := hnh
    obtain ⟨w, hw⟩ := ih cur hnrest
    by_cases he2 : should_exclude (strOfParts (cur ++ [nm])) = true
    · exact ⟨w, by simp [passFiles, he2, hw]⟩
    · cases st with
      | ok =>
        refine ⟨appendOut ⟨[⟨tarAddArcname (strOfParts (get_preserved_path k
          (cur ++ [nm]) bdir)), false, c⟩], [], c.length⟩ w, ?_⟩
        simp [passFiles, he2, hw, Except.map]
      | permDenied =>
        refine ⟨appendOut ⟨[], [strOfParts (cur ++ [nm])], c.length⟩ w, ?_⟩
        simp [passFiles, he2, hw, Except.map]
      | otherErr => exact absurd hst (by decide)

theorem walkSubs_ok_of_noHard (k : Nat) (bdir : List String) :
    ∀ (cs : FsListing) (cur : List String), noHardErr cs = true →
      ∃ w, walkSubs k bdir cur cs = Except.ok w := by
  intro cs
  induction cs with
  | nil => intro cur _; exact ⟨emptyOut, rfl⟩
  | file nm c st rest ih =>
    intro cur hnh
    simp only [noHardErr, Bool.and_eq_true] at hnh
    obtain ⟨w, hw⟩ := ih cur hnh.2
    exact ⟨w, by simpa [walkSubs] using hw⟩
  | dir nm st sub rest ihsub ihrest =>
    intro cur hnh
    simp only [noHardErr, Bool.and_eq_true] at hnh
    obtain ⟨⟨hst, hnsub⟩, hnrest⟩ := hnh
    obtain ⟨wr, hwr⟩ := ihrest cur hnrest
    by_cases he1 : should_exclude (strOfParts cur ++ "/" ++ nm) = true
    · exact ⟨wr, by simp [walkSubs, he1, hwr]⟩
    · obtain ⟨wa, hwa⟩ := passDirs_ok_of_noHard k bdir sub (cur ++ [nm]) hnsub
      obtain ⟨wb, hwb⟩ := passFiles_ok_of_noHard k bdir sub (cur ++ [nm]) hnsub
      obtain ⟨ws, hws⟩ := ihsub (cur ++ [nm]) hnsub
      refine ⟨appendOut wa (appendOut wb (appendOut ws wr)), ?_⟩
      simp [walkSubs, he1, hwa, hwb, hws, hwr, Bind.bind, Except.bind]

theorem walkLevel_ok_of_noHard (k : Nat) (bdir cur : List String) (cs : FsListing)
    (hnh : noHardErr cs = true) :
    ∃ w, walkLevel k bdir cur cs = Except.ok w := by
  obtain ⟨wa, hwa⟩ := passDirs_ok_of_noHard k bdir cs cur hnh
  obtain ⟨wb, hwb⟩ := passFiles_ok_of_noHard k bdir cs cur hnh
  obtain ⟨ws, hws⟩ := walkSubs_ok_of_noHard k bdir cs cur hnh
  refine ⟨appendOut wa (appendOut wb ws), ?_⟩
  simp [walkLevel, hwa, hwb, hws, Bind.bind, Except.bind]

theorem passDirs_eq_mirror (k : Nat) (bdir : List String) :
    ∀ (cs : FsListing) (cur : List String), noExcl cur cs = true → noHardErr cs = true →
      passDirs k bdir cur cs = Except.ok (mirrorDirs k bdir cur cs) := by
  intro cs
  induction cs with
  | nil => intro cur _ _; rfl
  | file nm c st rest ih =>
    intro cur hex hnh
    simp only [noExcl, Bool.and_eq_true] at hex
    simp only [noHardErr, Bool.and_eq_true] at hnh
    simpa [passDirs, mirrorDirs] using ih cur hex.2 hnh.2
  | dir nm st sub rest ihsub ihrest =>
    intro cur hex hnh
    simp only [noExcl, Bool.and_eq_true, Bool.not_eq_true'] at hex
    simp only [noHardErr, Bool.and_eq_true] at hnh
    obtain ⟨⟨⟨he1, he2⟩, hsub⟩, hrest⟩ := hex
    obtain ⟨⟨hst, hnsub⟩, hnrest⟩ := hnh
    cases st with
    | ok =>
      simp [passDirs, mirrorDirs, he1, he2, ihrest cur hrest hnrest, Except.map]
    | permDenied =>
      simp [passDirs, mirrorDirs, he1, he2, ihrest cur hrest hnrest, Except.map]
    | otherErr => exact absurd hst (by decide)

theorem passFiles_eq_mirror (k : Nat) (bdir : List String) :
    ∀ (cs : FsListing) (cur : List String), noExcl cur cs = true → noHardErr cs = true →
      passFiles k bdir cur cs = Except.ok (mirrorFiles k bdir cur cs) := by
  intro cs
  induction cs with
  | nil => intro cur _ _; rfl
  | dir nm st sub rest ihsub ihrest =>
    intro cur hex hnh
    simp only [noExcl, Bool.and_eq_true] at hex
    simp only [noHardErr, Bool.and_eq_true] at hnh
    simpa [passFiles, mirrorFiles] using ihrest cur hex.2 hnh.2
  | file nm c st rest ih =>
    intro cur hex hnh
    simp only [noExcl, Bool.and_eq_true, Bool.not_eq_true'] at hex
    simp only [noHardErr, Bool.and_eq_true] at hnh
    obtain ⟨he2, hrest⟩ := hex
    obtain ⟨hst, hnrest⟩ := hnh
    cases st with
    | ok => simp [passFiles, mirrorFiles, he2, ih cur hrest hnrest, Except.map]
    | permDenied => simp [passFiles, mirrorFiles, he2, ih cur hrest hnrest, Except.map]
    | otherErr => exact absurd hst (by decide)

theorem walkSubs_eq_mirror (k : Nat) (bdir : List String) :
    ∀ (cs : FsListing) (cur : List String), noExcl cur cs = true → noHardErr cs = true →
      walkSubs k bdir cur cs = Except.ok (mirrorSubs k bdir cur cs) := by
  intro cs
  induction cs with
  | nil => intro cur _ _; rfl
  | file nm c st rest ih =>
    intro cur hex hnh
    simp only [noExcl, Bool.and_eq_true] at hex
    simp only [noHardErr, Bool.and_eq_true] at hnh
    simpa [walkSubs, mirrorSubs] using ih cur hex.2 hnh.2
  | dir nm st sub rest ihsub ihrest =>
    intro cur hex hnh
    simp only [noExcl, Bool.and_eq_true, Bool.not_eq_true'] at hex
    simp only [noHardErr, Bool.and_eq_true] at hnh
    obtain ⟨⟨⟨he1, he2⟩, hsub⟩, hrest⟩ := hex
    obtain ⟨⟨hst, hnsub⟩, hnrest⟩ := hnh
    simp [walkSubs, mirrorSubs, he1,
      passDirs_eq_mirror k bdir sub (cur ++ [nm]) hsub hnsub,
      passFiles_eq_mirror k bdir sub (cur ++ [nm]) hsub hnsub,
      ihsub (cur ++ [nm]) hsub hnsub, ihrest cur hrest hnrest,
      Bind.bind, Except.bind]

theorem walkLevel_eq_mirror (k : Nat) (bdir cur : List String) (cs : FsListing)
    (hex : noExcl cur cs = true) (hnh : noHardErr cs = true) :
    walkLevel k bdir cur cs = Except.ok (mirrorLevel k bdir cur cs) := by
  simp [walkLevel, mirrorLevel, passDirs_eq_mirror k bdir cs cur hex hnh,
    passFiles_eq_mirror k bdir cs cur hex hnh,
    walkSubs_eq_mirror k bdir cs cur hex hnh, Bind.bind, Except.bind]

theorem hardTopDirs_false_of_ok (k : Nat) (bdir : List String) :
    ∀ (cs : FsListing) (cur : List String) (w : WalkOut), noExcl cur cs = true →
      passDirs k bdir cur cs = Except.ok w → hardTopDirs cs = false := by
  intro cs
  induction cs with
  | nil => intro cur w _ _; rfl
  | file nm c st rest ih =>
    intro cur w hex h
    simp only [noExcl, Bool.and_eq_true] at hex
    exact ih cur w hex.2 (by simpa [passDirs] using h)
  | dir nm st sub rest ihsub ihrest =>
    intro cur w hex h
    simp only [noExcl, Bool.and_eq_true, Bool.not_eq_true'] at hex
    obtain ⟨⟨⟨he1, he2⟩, hsub⟩, hrest⟩ := hex
    have hne1 : ¬ should_exclude (strOfParts cur ++ "/" ++ nm) = true := by simp [he1]
    have hne2 : ¬ should_exclude (strOfParts (cur ++ [nm])) = true := by simp [he2]
    simp only [passDirs] at h
    rw [if_neg hne1, if_neg hne2] at h
    cases st with
    | ok =>
      cases hrest2 : passDirs k bdir cur rest with
      | error e =>
        rw [hrest2] at h
        simp only [Except.map] at h
        exact Except.noConfusion h
      | ok w2 => simp [hardTopDirs, ihrest cur w2 hrest hrest2]
    | permDenied =>
      cases hrest2 : passDirs k bdir cur rest with
      | error e =>
        rw [hrest2] at h
        simp only [Except.map] at h
        exact Except.noConfusion h
      | ok w2 => simp [hardTopDirs, ihrest cur w2 hrest hrest2]
    | otherErr => exact Except.noConfusion h

theorem hardTopFiles_false_of_ok (k : Nat) (bdir : List String) :
    ∀ (cs : FsListing) (cur : List String) (w : WalkOut), noExcl cur cs = true →
      passFiles k bdir cur cs = Except.ok w → hardTopFiles cs = false := by
  intro cs
  induction cs with
  | nil => intro cur w _ _; rfl
  | dir nm st sub rest ihsub ihrest =>
    intro cur w hex h
    simp only [noExcl, Bool.and_eq_true] at hex
    exact ihrest cur w hex.2 (by simpa [passFiles] using h)
  | file nm c st rest ih =>
    intro cur w hex h
    simp only [noExcl, Bool.and_eq_true, Bool.not_eq_true'] at hex
    obtain ⟨he2, hrest⟩ := hex
    have hne2 : ¬ should_exclude (strOfParts (cur ++ [nm])) = true := by simp [he2]
    simp only [passFiles] at h
    rw [if_neg hne2] at h
    cases st with
    | ok =>
      cases hrest2 : passFiles k bdir cur rest with
      | error e =>
        rw [hrest2] at h
        simp only [Except.map] at h
        exact Except.noConfusion h
      | ok w2 => simp [hardTopFiles, ih cur w2 hrest hrest2]
    | permDenied =>
      cases hrest2 : passFiles k bdir cur rest with
      | error e =>
        rw [hrest2] at h
        simp only [Except.map] at h
        exact Except.noConfusion h
      | ok w2 => simp [hardTopFiles, ih cur w2 hrest hrest2]
    | otherErr => exact Except.noConfusion h

theorem hasHardErr_eq (cs : FsListing) :
    hasHardErr cs = (hardTopDirs cs || hardTopFiles cs || hasHardBelow cs) := by
  induction cs with
  | nil => rfl
  | file nm c st rest ih =>
    simp only [hasHardErr, hardTopDirs, hardTopFiles, hasHardBelow, ih]
    cases hb : st == ItemStatus.otherErr <;> cases h1 : hardTopDirs rest <;>
      cases h2 : hardTopFiles rest <;> cases h3 : hasHardBelow rest <;> simp
  | dir nm st sub rest ihsub ihrest =>
    simp only [hasHardErr, hardTopDirs, hardTopFiles, hasHardBelow, ihrest]
    cases hb : st == ItemStatus.otherErr <;> cases h0 : hasHardErr sub <;>
      cases h1 : hardTopDirs rest <;> cases h2 : hardTopFiles rest <;>
      cases h3 : hasHardBelow rest <;> simp

theorem hasHardBelow_false_of_ok (k : Nat) (bdir : List String) :
    ∀ (cs : FsListing) (cur : List String) (w : WalkOut), noExcl cur cs = true →
      walkSubs k bdir cur cs = Except.ok w → hasHardBelow cs = false := by
  intro cs
  induction cs with
  | nil => intro cur w _ _; rfl
  | file nm c st rest ih =>
    intro cur w hex h
    simp only [noExcl, Bool.and_eq_true] at hex
    exact ih cur w hex.2 (by simpa [walkSubs] using h)
  | dir nm st sub rest ihsub ihrest =>
    intro cur w hex h
    simp only [noExcl, Bool.and_eq_true, Bool.not_eq_true'] at hex
    obtain ⟨⟨⟨he1, he2⟩, hsub⟩, hrest⟩ := hex
    have hne1 : ¬ should_exclude (strOfParts cur ++ "/" ++ nm) = true := by simp [he1]
    simp only [walkSubs] at h
    rw [if_neg hne1] at h
    cases ha : passDirs k bdir (cur ++ [nm]) sub with
    | error e =>
      rw [ha] at h
      simp only [Bind.bind, Except.bind] at h
      exact Except.noConfusion h
    | ok wa =>
      rw [ha] at h
      simp only [Bind.bind, Except.bind] at h
      cases hb : passFiles k bdir (cur ++ [nm]) sub with
      | error e =>
        rw [hb] at h
        exact Except.noConfusion h
      | ok wb =>
        rw [hb] at h
        cases hs : walkSubs k bdir (cur ++ [nm]) sub with
        | error e =>
          rw [hs] at h
          exact Except.noConfusion h
        | ok ws =>
          rw [hs] at h
          cases hr : walkSubs k bdir cur rest with
          | error e =>
            rw [hr] at h
            exact Except.noConfusion h
          | ok wr =>
            have hd := hardTopDirs_false_of_ok k bdir sub (cur ++ [nm]) wa hsub ha
            have hf := hardTopFiles_false_of_ok k bdir sub (cur ++ [nm]) wb hsub hb
            have hbl := ihsub (cur ++ [nm]) ws hsub hs
            have hrr := ihrest cur wr hrest hr
            simp [hasHardBelow, hasHardErr_eq, hd, hf, hbl, hrr]

/-! ## Claim C6: permission failures are soft, other exceptions are fatal -/

/-- C6: for every backup target tree, (1) if no item raises anything other
than a PermissionError the processing of the target succeeds (permission
failures are never fatal); (2) when additionally nothing is excluded the
result is exactly the status-driven mirror, in which every permission-denied
item is recorded in the skipped list and every other item is archived
(processing continues); (3) if some reachable item raises any other
exception, the target aborts and create_tar_archive raises the wrapping
directory-processing error, terminating the backup. -/
theorem archive_permission_soft_other_fatal (k : Nat) (bdir : List String)
    (cs : FsListing) :
    (noHardErr cs = true → ∃ w, processTarget k bdir cs = Except.ok w) ∧
    (noExcl bdir cs = true → noHardErr cs = true →
      processTarget k bdir cs = Except.ok (mirrorLevel k bdir bdir cs)) ∧
    (noExcl bdir cs = true → hasHardErr cs = true →
      ∃ e, create_tar_archive k [⟨bdir, cs, true⟩] =
        Except.error ("Error processing " ++ strOfParts bdir ++ ": " ++ e)) := by
  refine ⟨?_, ?_, ?_⟩
  · intro hnh
    exact walkLevel_ok_of_noHard k bdir bdir cs hnh
  · intro hex hnh
    exact walkLevel_eq_mirror k bdir bdir cs hex hnh
  · intro hex hhard
    have hpt : ∃ e, processTarget k bdir cs = Except.error e := by
      unfold processTarget walkLevel
      cases ha : passDirs k bdir bdir cs with
      | error e => exact ⟨e, by simp [ha, Bind.bind, Except.bind]⟩
      | ok wa =>
        cases hb : passFiles k bdir bdir cs with
        | error e => exact ⟨e, by simp [ha, hb, Bind.bind, Except.bind]⟩
        | ok wb =>
          cases hs : walkSubs k bdir bdir cs with
          | error e => exact ⟨e, by simp [ha, hb, hs, Bind.bind, Except.bind]⟩
          | ok ws =>
            exfalso
            have hd := hardTopDirs_false_of_ok k bdir cs bdir wa hex ha
            have hf := hardTopFiles_false_of_ok k bdir cs bdir wb hex hb
            have hbl := hasHardBelow_false_of_ok k bdir cs bdir ws hex hs
            rw [hasHardErr_eq, hd, hf, hbl] at hhard
            exact Bool.noConfusion hhard
    obtain ⟨e, he⟩ := hpt
    exact ⟨e, by simp [create_tar_archive, archiveTargets_single, he]⟩

/-- Witness for C6: a tree with one permission-denied and one readable file
is processed to the mirror (soft failure), and a tree with a file raising
another exception makes the whole archive run fail with the wrapped
directory-processing error. -/
theorem archive_permission_soft_other_fatal_witness :
    (noExcl ["/", "data", "a"]
        (FsListing.file "f" [1] ItemStatus.permDenied
          (FsListing.file "g" [2] ItemStatus.ok FsListing.nil)) = true ∧
      noHardErr (FsListing.file "f" [1] ItemStatus.permDenied
          (FsListing.file "g" [2] ItemStatus.ok FsListing.nil)) = true ∧
      processTarget 2 ["/", "data", "a"]
          (FsListing.file "f" [1] ItemStatus.permDenied
            (FsListing.file "g" [2] ItemStatus.ok FsListing.nil)) =
        Except.ok (mirrorLevel 2 ["/", "data", "a"] ["/", "data", "a"]
          (FsListing.file "f" [1] ItemStatus.permDenied
            (FsListing.file "g" [2] ItemStatus.ok FsListing.nil)))) ∧
    (hasHardErr (FsListing.file "h" [1] ItemStatus.otherErr FsListing.nil) = true ∧
      ∃ e, create_tar_archive 2 [⟨["/", "data", "a"],
          FsListing.file "h" [1] ItemStatus.otherErr FsListing.nil, true⟩] =
        Except.error ("Error processing " ++ strOfParts ["/", "data", "a"] ++ ": " ++ e)) :=
  ⟨⟨by decide, by decide,
    (archive_permission_soft_other_fatal 2 ["/", "data", "a"]
      (FsListing.file "f" [1] ItemStatus.permDenied
        (FsListing.file "g" [2] ItemStatus.ok FsListing.nil))).2.1 (by decide) (by decide)⟩,
   ⟨by decide,
    (archive_permission_soft_other_fatal 2 ["/", "data", "a"]
      (FsListing.file "h" [1] ItemStatus.otherErr FsListing.nil)).2.2
      (by decide) (by decide)⟩⟩

/-! ## The file entries of a clean mirror walk -/

theorem noHardErr_of_allOk : ∀ cs : FsListing, allOkStatus cs = true →
    noHardErr cs = true := by
  intro cs
  induction cs with
  | nil => intro _; rfl
  | file nm c st rest ih =>
    intro h
    simp only [allOkStatus, Bool.and_eq_true] at h
    have hst : st = ItemStatus.ok := eq_of_beq h.1
    subst hst
    simp [noHardErr, ih h.2]
  | dir nm st sub rest ihsub ihrest =>
    intro h
    simp only [allOkStatus, Bool.and_eq_true] at h
    have hst : st = ItemStatus.ok := eq_of_beq h.1.1
    subst hst
    simp [noHardErr, ihsub h.1.2, ihrest h.2]

theorem mirrorDirs_entries_filter (k : Nat) (bdir cur : List String) :
    ∀ cs : FsListing,
      (mirrorDirs k bdir cur cs).entries.filter (fun m => !m.isDir) = [] := by
  intro cs
  induction cs with
  | nil => rfl
  | file nm c st rest ih => simpa [mirrorDirs] using ih
  | dir nm st sub rest ihsub ihrest =>
    cases st <;> simp [mirrorDirs, appendOut, emptyOut, ihrest]

theorem mirrorDirs_srcSize (k : Nat) (bdir cur : List String) :
    ∀ cs : FsListing, (mirrorDirs k bdir cur cs).srcSize = 0 := by
  intro cs
  induction cs with
  | nil => rfl
  | file nm c st rest ih => simpa [mirrorDirs] using ih
  | dir nm st sub rest ihsub ihrest =>
    cases st <;> simp [mirrorDirs, appendOut, emptyOut, ihrest]

theorem mirrorFiles_entries_of_allOk (k : Nat) (bdir : List String) :
    ∀ (cs : FsListing) (cur : List String), allOkStatus cs = true →
      (mirrorFiles k bdir cur cs).entries =
        (sourceFilesHere cs).map (fun pr =>
          ⟨tarAddArcname (strOfParts (get_preserved_path k (cur ++ pr.1) bdir)),
            false, pr.2⟩) := by
  intro cs
  induction cs with
  | nil => intro cur _; rfl
  | dir nm st sub rest ihsub ihrest =>
    intro cur h
    simp only [allOkStatus, Bool.and_eq_true] at h
    simpa [mirrorFiles, sourceFilesHere] using ihrest cur h.2
  | file nm c st rest ih =>
    intro cur h
    simp only [allOkStatus, Bool.and_eq_true] at h
    have hst : st = ItemStatus.ok := eq_of_beq h.1
    subst hst
    simp [mirrorFiles, sourceFilesHere, appendOut, ih cur h.2]

theorem mirrorSubs_files_of_allOk (k : Nat) (bdir : List String) :
    ∀ (cs : FsListing) (cur : List String), allOkStatus cs = true →
      (mirrorSubs k bdir cur cs).entries.filter (fun m => !m.isDir) =
        (sourceFilesSub cs).map (fun pr =>
          ⟨tarAddArcname (strOfParts (get_preserved_path k (cur ++ pr.1) bdir)),
            false, pr.2⟩) := by
  intro cs
  induction cs with
  | nil => intro cur _; rfl
  | file nm c st rest ih =>
    intro cur h
    simp only [allOkStatus, Bool.and_eq_true] at h
    simpa [mirrorSubs, sourceFilesSub] using ih cur h.2
  | dir nm st sub rest ihsub ihrest =>
    intro cur h
    simp only [allOkStatus, Bool.and_eq_true] at h
    obtain ⟨⟨hst, hsub⟩, hrest⟩ := h
    simp only [mirrorSubs, sourceFilesSub, appendOut, List.filter_append]
    rw [mirrorDirs_entries_filter, mirrorFiles_entries_of_allOk k bdir sub (cur ++ [nm]) hsub,
      ihsub (cur ++ [nm]) hsub, ihrest cur hrest]
    have hfil : ((sourceFilesHere sub).map (fun pr =>
        (⟨tarAddArcname (strOfParts (get_preserved_path k ((cur ++ [nm]) ++ pr.1) bdir)),
          false, pr.2⟩ : TarMember))).filter (fun m => !m.isDir) =
        (sourceFilesHere sub).map (fun pr =>
          (⟨tarAddArcname (strOfParts (get_preserved_path k ((cur ++ [nm]) ++ pr.1) bdir)),
            false, pr.2⟩ : TarMember)) := by
      apply List.filter_eq_self.mpr
      intro a ha
      obtain ⟨pr, hpr, rfl⟩ := List.mem_map.mp ha
      rfl
    rw [hfil]
    have hmap : ∀ X : List (List String × List Nat),
        X.map (fun pr =>
          (⟨tarAddArcname (strOfParts (get_preserved_path k ((cur ++ [nm]) ++ pr.1) bdir)),
            false, pr.2⟩ : TarMember)) =
        (X.map (fun pr => (nm :: pr.1, pr.2))).map (fun pr =>
          (⟨tarAddArcname (strOfParts (get_preserved_path k (cur ++ pr.1) bdir)),
            false, pr.2⟩ : TarMember)) := by
      intro X
      rw [List.map_map]
      apply List.map_congr_left
      intro pr _
      simp [Function.comp, List.append_assoc]
    simp only [List.nil_append, List.map_append, ← hmap, List.append_assoc]

theorem mirror_srcSize_of_allOk (k : Nat) (bdir : List String) :
    ∀ (cs : FsListing) (cur : List String), allOkStatus cs = true →
      (mirrorFiles k bdir cur cs).srcSize + (mirrorSubs k bdir cur cs).srcSize =
        treeSize cs := by
  intro cs
  induction cs with
  | nil => intro cur _; rfl
  | file nm c st rest ih =>
    intro cur h
    simp only [allOkStatus, Bool.and_eq_true] at h
    have hst : st = ItemStatus.ok := eq_of_beq h.1
    subst hst
    have := ih cur h.2
    simp only [mirrorFiles, mirrorSubs, treeSize, appendOut]
    omega
  | dir nm st sub rest ihsub ihrest =>
    intro cur h
    simp only [allOkStatus, Bool.and_eq_true] at h
    obtain ⟨⟨hst, hsub⟩, hrest⟩ := h
    have h1 := ihsub (cur ++ [nm]) hsub
    have h2 := ihrest cur hrest
    have h3 := mirrorDirs_srcSize k bdir (cur ++ [nm]) sub
    simp only [mirrorFiles, mirrorSubs, treeSize, appendOut]
    omega

theorem mirrorLevel_srcSize_of_allOk (k : Nat) (bdir cur : List String) (cs : FsListing)
    (h : allOkStatus cs = true) :
    (mirrorLevel k bdir cur cs).srcSize = treeSize cs := by
  have h1 := mirror_srcSize_of_allOk k bdir cs cur h
  have h2 := mirrorDirs_srcSize k bdir cur cs
  simp only [mirrorLevel, appendOut]
  omega

theorem mirrorLevel_files_of_allOk (k : Nat) (bdir cur : List String) (cs : FsListing)
    (h : allOkStatus cs = true) :
    (mirrorLevel k bdir cur cs).entries.filter (fun m => !m.isDir) =
      (sourceFiles cs).map (fun pr =>
        ⟨tarAddArcname (strOfParts (get_preserved_path k (cur ++ pr.1) bdir)),
          false, pr.2⟩) := by
  simp only [mirrorLevel, appendOut, List.filter_append, sourceFiles, List.map_append]
  rw [mirrorDirs_entries_filter, mirrorFiles_entries_of_allOk k bdir cs cur h,
    mirrorSubs_files_of_allOk k bdir cs cur h]
  have hfil : ((sourceFilesHere cs).map (fun pr =>
      (⟨tarAddArcname (strOfParts (get_preserved_path k (cur ++ pr.1) bdir)),
        false, pr.2⟩ : TarMember))).filter (fun m => !m.isDir) =
      (sourceFilesHere cs).map (fun pr =>
        (⟨tarAddArcname (strOfParts (get_preserved_path k (cur ++ pr.1) bdir)),
          false, pr.2⟩ : TarMember)) := by
    apply List.filter_eq_self.mpr
    intro a ha
    obtain ⟨pr, hpr, rfl⟩ := List.mem_map.mp ha
    rfl
  rw [hfil]
  simp

/-! ## Name predicates along the source file list -/

theorem eachName_sourceFilesHere (P : String → Bool) :
    ∀ cs : FsListing, eachName P cs = true →
      ∀ pr ∈ sourceFilesHere cs, ∀ s ∈ pr.1, P s = true := by
  intro cs
  induction cs with
  | nil => intro _ pr hpr; simp [sourceFilesHere] at hpr
  | file nm c st rest ih =>
    intro h pr hpr
    simp only [eachName, Bool.and_eq_true] at h
    simp only [sourceFilesHere, List.mem_cons] at hpr
    rcases hpr with rfl | hpr
    · intro s hs
      rw [List.mem_singleton.mp hs]
      exact h.1
    · exact ih h.2 pr hpr
  | dir nm st sub rest ihsub ihrest =>
    intro h pr hpr
    simp only [eachName, Bool.and_eq_true] at h
    exact ihrest h.2 pr (by simpa [sourceFilesHere] using hpr)

theorem eachName_sourceFilesSub (P : String → Bool) :
    ∀ cs : FsListing, eachName P cs = true →
      ∀ pr ∈ sourceFilesSub cs, ∀ s ∈ pr.1, P s = true := by
  intro cs
  induction cs with
  | nil => intro _ pr hpr; simp [sourceFilesSub] at hpr
  | file nm c st rest ih =>
    intro h pr hpr
    simp only [eachName, Bool.and_eq_true] at h
    exact ih h.2 pr (by simpa [sourceFilesSub] using hpr)
  | dir nm st sub rest ihsub ihrest =>
    intro h pr hpr
    simp only [eachName, Bool.and_eq_true] at h
    obtain ⟨⟨hP, hsub⟩, hrest⟩ := h
    simp only [sourceFilesSub] at hpr
    rcases List.mem_append.mp hpr with hp1 | hp2
    · obtain ⟨pr0, hpr0, rfl⟩ := List.mem_map.mp hp1
      intro s hs
      rcases List.mem_cons.mp hs with rfl | hs2
      · exact hP
      · rcases List.mem_append.mp hpr0 with hh | hh
        · exact eachName_sourceFilesHere P sub hsub pr0 hh s hs2
        · exact ihsub hsub pr0 hh s hs2
    · exact ihrest hrest pr hp2

theorem eachName_sourceFiles (P : String → Bool) (cs : FsListing)
    (h : eachName P cs = true) :
    ∀ pr ∈ sourceFiles cs, ∀ s ∈ pr.1, P s = true := by
  intro pr hpr
  rcases List.mem_append.mp hpr with h1 | h2
  · exact eachName_sourceFilesHere P cs h pr h1
  · exact eachName_sourceFilesSub P cs h pr h2

theorem sourceFilesHere_fst_ne_nil : ∀ cs : FsListing,
    ∀ pr ∈ sourceFilesHere cs, pr.1 ≠ [] := by
  intro cs
  induction cs with
  | nil => intro pr hpr; simp [sourceFilesHere] at hpr
  | file nm c st rest ih =>
    intro pr hpr
    simp only [sourceFilesHere, List.mem_cons] at hpr
    rcases hpr with rfl | hpr
    · simp
    · exact ih pr hpr
  | dir nm st sub rest ihsub ihrest =>
    intro pr hpr
    exact ihrest pr (by simpa [sourceFilesHere] using hpr)

theorem sourceFilesSub_fst_ne_nil : ∀ cs : FsListing,
    ∀ pr ∈ sourceFilesSub cs, pr.1 ≠ [] := by
  intro cs
  induction cs with
  | nil => intro pr hpr; simp [sourceFilesSub] at hpr
  | file nm c st rest ih =>
    intro pr hpr
    exact ih pr (by simpa [sourceFilesSub] using hpr)
  | dir nm st sub rest ihsub ihrest =>
    intro pr hpr
    simp only [sourceFilesSub] at hpr
    rcases List.mem_append.mp hpr with hp1 | hp2
    · obtain ⟨pr0, hpr0, rfl⟩ := List.mem_map.mp hp1
      simp
    · exact ihrest pr hp2

theorem sourceFiles_fst_ne_nil (cs : FsListing) (pr : List String × List Nat)
    (h : pr ∈ sourceFiles cs) : pr.1 ≠ [] := by
  rcases List.mem_append.mp h with h1 | h2
  · exact sourceFilesHere_fst_ne_nil cs pr h1
  · exact sourceFilesSub_fst_ne_nil cs pr h2

/-! ## Final name forms for the round trip -/

theorem strOfParts_eq_joinRel_of_valid (p : List String) (hne : p ≠ [])
    (hall : ∀ s ∈ p, validSeg s = true) : strOfParts p = joinRel p := by
  obtain ⟨s, rest, rfl⟩ : ∃ s rest, p = s :: rest := by
    cases p with
    | nil => exact absurd rfl hne
    | cons s rest => exact ⟨s, rest, rfl⟩
  have hs := validSeg_parts s (hall s (by simp))
  have hroot : s ≠ "/" := by
    intro hh
    rw [hh] at hs
    exact absurd hs.2.1 (by decide)
  exact strOfParts_cons_ne_root s rest hroot

theorem preserved_name_no_dotdot (k : Nat) (t rel : List String) (nm : String)
    (hk1 : 1 ≤ k) (hk2 : k < ("/" :: t).length)
    (ht : ∀ s ∈ t, validSeg s = true) (htd : ∀ s ∈ t, strContains s ".." = false)
    (hrel : ∀ s ∈ rel, validSeg s = true) (hreld : ∀ s ∈ rel, strContains s ".." = false)
    (hnm : validSeg nm = true) (hnmd : strContains nm ".." = false) :
    strContains (strOfParts
      (get_preserved_path k ((("/" :: t) ++ rel) ++ [nm]) ("/" :: t))) ".." = false := by
  rw [List.append_assoc, get_preserved_path_descendant,
    preserved_parts_of_bounded k t hk1 hk2]
  have hvalid : ∀ s ∈ t.drop (t.length - k) ++ (rel ++ [nm]), validSeg s = true := by
    intro s hs
    rcases List.mem_append.mp hs with h1 | h2
    · exact ht s (List.drop_subset _ _ h1)
    · rcases List.mem_append.mp h2 with h3 | h4
      · exact hrel s h3
      · rw [List.mem_singleton.mp h4]
        exact hnm
  have hnd : ∀ s ∈ t.drop (t.length - k) ++ (rel ++ [nm]), strContains s ".." = false := by
    intro s hs
    rcases List.mem_append.mp hs with h1 | h2
    · exact htd s (List.drop_subset _ _ h1)
    · rcases List.mem_append.mp h2 with h3 | h4
      · exact hreld s h3
      · rw [List.mem_singleton.mp h4]
        exact hnmd
  have hne : t.drop (t.length - k) ++ (rel ++ [nm]) ≠ [] := by simp
  rw [strOfParts_eq_joinRel_of_valid _ hne hvalid]
  exact joinRel_no_sub _ ".." (by decide) (by decide) hnd

theorem entry_name_to_claim_form (k : Nat) (t relp : List String)
    (hk1 : 1 ≤ k) (hk2 : k < ("/" :: t).length)
    (ht : ∀ s ∈ t, validSeg s = true)
    (hrel : ∀ s ∈ relp, validSeg s = true) (hne : relp ≠ []) :
    tarAddArcname (strOfParts (get_preserved_path k (("/" :: t) ++ relp) ("/" :: t))) =
      strOfParts (lastSegs (min k ("/" :: t).length) ("/" :: t) ++ relp) := by
  rw [get_preserved_path_descendant, preserved_parts_of_bounded k t hk1 hk2,
    lastSegs_root_bounded k t hk1 hk2]
  have hallp : ∀ s ∈ t.drop (t.length - k) ++ relp, validSeg s = true := by
    intro s hs
    rcases List.mem_append.mp hs with h1 | h2
    · exact ht s (List.drop_subset _ _ h1)
    · exact hrel s h2
  have hnep : t.drop (t.length - k) ++ relp ≠ [] := by
    intro hh
    exact hne (List.append_eq_nil.mp hh).2
  exact tarAddArcname_id _ (strOfParts_safe _ hnep hallp).1

/-! ## Claim C4: the backup and restore round trip -/

/-- C4 counterexample: a tree holding a cache directory matching an
exclusion pattern round-trips to a strictly smaller file set, because the
builder prunes the excluded directory, so the claim fails for arbitrary
directory trees. -/
theorem round_trip_counterexample :
    ¬ roundTripReproduces 2 ["/", "data", "a"]
      (FsListing.dir "__pycache__" ItemStatus.ok
        (FsListing.file "m" [2] ItemStatus.ok FsListing.nil)
        (FsListing.file "f" [1] ItemStatus.ok FsListing.nil)) := by
  rintro ⟨ms, h1, h2⟩
  have h0 : backupThenRestore 2 ["/", "data", "a"]
      (FsListing.dir "__pycache__" ItemStatus.ok
        (FsListing.file "m" [2] ItemStatus.ok FsListing.nil)
        (FsListing.file "f" [1] ItemStatus.ok FsListing.nil)) =
      Except.ok [⟨"data/a/f", false, [1]⟩] := by rfl
  rw [h0] at h1
  injection h1 with h1
  subst h1
  revert h2
  decide

/-- C4 amended: for every directory tree with well-formed entry names
containing no two-dot substring, no path matching an exclusion pattern, all
items readable, at least one source byte, rooted at a resolved absolute
well-formed root whose segments contain no two-dot substring, and archived
with 1 ≤ preserve_levels < number of root parts, backing up and then
restoring reproduces exactly the relative file set with byte-identical
contents beneath the preserved-path prefix. -/
theorem round_trip_reproduces_of_clean (k : Nat) (t : List String) (cs : FsListing)
    (hk1 : 1 ≤ k) (hk2 : k < ("/" :: t).length)
    (ht : ∀ s ∈ t, validSeg s = true)
    (htd : ∀ s ∈ t, strContains s ".." = false)
    (hwf : wfNames cs = true) (hdd : noDotDotNames cs = true)
    (hok : allOkStatus cs = true) (hex : noExcl ("/" :: t) cs = true)
    (hsz : 0 < treeSize cs) :
    roundTripReproduces k ("/" :: t) cs := by
  have hnh := noHardErr_of_allOk cs hok
  have hpt : processTarget k ("/" :: t) cs =
      Except.ok (mirrorLevel k ("/" :: t) ("/" :: t) cs) :=
    walkLevel_eq_mirror k ("/" :: t) ("/" :: t) cs hex hnh
  have hsz2 : ¬ (appendOut (mirrorLevel k ("/" :: t) ("/" :: t) cs) emptyOut).srcSize = 0 := by
    simp only [appendOut, emptyOut]
    rw [show (mirrorLevel k ("/" :: t) ("/" :: t) cs).srcSize + 0 =
      (mirrorLevel k ("/" :: t) ("/" :: t) cs).srcSize from by omega]
    rw [mirrorLevel_srcSize_of_allOk k ("/" :: t) ("/" :: t) cs hok]
    omega
  have hct : create_tar_archive k [⟨"/" :: t, cs, true⟩] =
      Except.ok (appendOut (mirrorLevel k ("/" :: t) ("/" :: t) cs) emptyOut) := by
    simp [create_tar_archive, archiveTargets_single, hpt, hsz2]
  have hsafeAll : ∀ m ∈ (appendOut (mirrorLevel k ("/" :: t) ("/" :: t) cs) emptyOut).entries,
      unsafeMemberName m.name = false := by
    intro m hm
    have hm1 : m ∈ (mirrorLevel k ("/" :: t) ("/" :: t) cs).entries := by
      simpa [appendOut, emptyOut] using hm
    obtain ⟨rel, nm, hpath, hshape⟩ :=
      walkLevel_entries_shape k ("/" :: t) ("/" :: t) cs _ hpt m hm1
    obtain ⟨hrelv, hnmv⟩ := eachName_pathInListing validSeg rel nm cs hwf hpath
    obtain ⟨hreld0, hnmd0⟩ :=
      eachName_pathInListing (fun s => !strContains s "..") rel nm cs hdd hpath
    have hreld : ∀ s ∈ rel, strContains s ".." = false := fun s hs => by
      have := hreld0 s hs
      simpa using this
    have hnmd : strContains nm ".." = false := by simpa using hnmd0
    have h1 := preserved_name_props k t rel nm hk1 hk2 ht hrelv hnmv
    have h2 := preserved_name_no_dotdot k t rel nm hk1 hk2 ht htd hrelv hreld hnmv hnmd
    rcases hshape with hn | hn
    · rw [hn]
      unfold unsafeMemberName
      rw [h1.1, h2]
      rfl
    · rw [hn, tarAddArcname_id _ h1.1]
      unfold unsafeMemberName
      rw [h1.1, h2]
      rfl
  have hnone : (appendOut (mirrorLevel k ("/" :: t) ("/" :: t) cs) emptyOut).entries.find?
      (fun m => unsafeMemberName m.name) = none :=
    List.find?_eq_none.mpr (fun m hm => by simp [hsafeAll m hm])
  refine ⟨(appendOut (mirrorLevel k ("/" :: t) ("/" :: t) cs) emptyOut).entries, ?_, ?_⟩
  · unfold backupThenRestore
    rw [hct]
    dsimp only
    unfold extract_tar
    rw [hnone]
  · unfold extractedFiles
    have hents : (appendOut (mirrorLevel k ("/" :: t) ("/" :: t) cs) emptyOut).entries =
        (mirrorLevel k ("/" :: t) ("/" :: t) cs).entries := by
      simp [appendOut, emptyOut]
    rw [hents, mirrorLevel_files_of_allOk k ("/" :: t) ("/" :: t) cs hok, List.map_map]
    apply List.map_congr_left
    intro pr hpr
    have hrelv : ∀ s ∈ pr.1, validSeg s = true :=
      eachName_sourceFiles validSeg cs hwf pr hpr
    have hprne : pr.1 ≠ [] := sourceFiles_fst_ne_nil cs pr hpr
    simp only [Function.comp]
    rw [entry_name_to_claim_form k t pr.1 hk1 hk2 ht hrelv hprne]

/-- Witness for C4 amended at a concrete two-level tree. -/
theorem round_trip_reproduces_of_clean_witness :
    roundTripReproduces 2 ["/", "data", "a"]
      (FsListing.dir "sub" ItemStatus.ok (FsListing.file "g" [2] ItemStatus.ok FsListing.nil)
        (FsListing.file "f" [1] ItemStatus.ok FsListing.nil)) :=
  round_trip_reproduces_of_clean 2 ["data", "a"]
    (FsListing.dir "sub" ItemStatus.ok (FsListing.file "g" [2] ItemStatus.ok FsListing.nil)
      (FsListing.file "f" [1] ItemStatus.ok FsListing.nil))
    (by decide) (by decide) (by decide) (by decide) (by decide) (by decide)
    (by decide) (by decide) (by decide)
